import Mathlib

/-!
Shallow embedding of the glyph-layout and atlas-preprocessing engine of
`MCFont.js` (class `MCFontRenderer`), together with theorems checking the
specification's claims about it.

Modelling conventions:
* JS numbers are modelled as `ℚ`; `Math.round` as `jround` (floor of `x + 1/2`,
  which is the JS rounding rule).
* Pixel buffers (canvas `ImageData`) are modelled as functions from coordinates
  to RGBA pixels; the alpha scan (`_scanAlpha`) as a flat-indexed byte function.
* The ascending / descending linear scans of the source (leftmost opaque
  column, topmost opaque row, ...) are modelled by `firstBelow` / `lastBelow`,
  which return the first hit of such a scan.
* Texture pack identity (JS object identity, used for run batching and for the
  quote-alternate substitution) is modelled by the tag type `PackRef`; wide
  atlas page ids (two-hex-digit strings in the source) are modelled by their
  numeric high-byte value, so page "00" is page `0`.
* The text is modelled as the list of its code points.
-/

namespace MCFont

/-- JS `Math.round`: round half toward positive infinity. -/
def jround (q : ℚ) : ℤ := ⌊q + 1/2⌋

/-- First (least) `b < n` with `p b = true`: the result of an ascending linear
scan, as used for the leftmost-opaque-column / topmost-opaque-row searches in
`MCFont.js`. -/
def firstBelow (p : ℕ → Bool) : ℕ → Option ℕ
  | 0 => none
  | n + 1 =>
    match firstBelow p n with
    | some a => some a
    | none => if p n then some n else none

/-- Last (greatest) `b < n` with `p b = true`: a descending linear scan, as
used for the rightmost-opaque-column / bottommost-opaque-row searches. -/
def lastBelow (p : ℕ → Bool) : ℕ → Option ℕ
  | 0 => none
  | n + 1 => if p n then some n else lastBelow p n

/-- Bounded boolean existential (a loop that looks for any hit below `n`). -/
def anyBelow (p : ℕ → Bool) (n : ℕ) : Bool := (List.range n).any p

/-! ### Alpha scan and metrics builders (`_scanAlpha`, `_buildAdvance`, `_buildVerticalMetrics`) -/

/-- Result of `_scanAlpha`: the per-pixel alpha bytes of an atlas image,
flat-indexed as `y * width + x` like the `Uint8Array` in the source. -/
structure Scan where
  width : ℕ
  height : ℕ
  alpha : ℕ → ℕ

/-- `colHasOpaque` of `_buildAdvance`: does column `x` contain a pixel with
alpha above 0 in rows `y0 .. y1`? -/
def colHasOpaque (scan : Scan) (x y0 y1 : ℕ) : Bool :=
  anyBelow (fun d => decide (0 < scan.alpha ((y0 + d) * scan.width + x))) (y1 + 1 - y0)

/-- Row counterpart used by `_buildVerticalMetrics`'s inner scans: does row `y`
contain a pixel with alpha above 0 in columns `x0 .. x1`? -/
def rowHasOpaque (scan : Scan) (y x0 x1 : ℕ) : Bool :=
  anyBelow (fun d => decide (0 < scan.alpha (y * scan.width + (x0 + d)))) (x1 + 1 - x0)

/-- `_buildAdvance` for one tile index of a 16-tiles-per-row atlas.  The tile
spans columns `x0 = (idx % 16) * tileW ..` and rows `y0 = (idx / 16) * tileH ..
y0 + tileH - 1`; the ascending scan finds the leftmost opaque column, the
descending one the rightmost; an empty tile gets advance `tileW`, a non-empty
one `(right - left + 1) + 1`. -/
def advCompute (w : ℕ) (lft rgt : Option ℕ) : ℕ :=
  match lft, rgt with
  | some l, some r => (r - l + 1) + 1
  | _, _ => w

/-- `_buildAdvance` for one tile index (see `advCompute` for the arithmetic). -/
def buildAdvance (scan : Scan) (tileW tileH idx : ℕ) : ℕ :=
  advCompute tileW
    (firstBelow (fun d => colHasOpaque scan (idx % 16 * tileW + d)
      (idx / 16 * tileH) (idx / 16 * tileH + tileH - 1)) tileW)
    (lastBelow (fun d => colHasOpaque scan (idx % 16 * tileW + d)
      (idx / 16 * tileH) (idx / 16 * tileH + tileH - 1)) tileW)

/-- Offsets (0-based, within the tile) of the opaque columns of tile `idx`. -/
def opaqueCols (scan : Scan) (tileW tileH idx : ℕ) : Finset ℕ :=
  (Finset.range tileW).filter
    (fun d => colHasOpaque scan (idx % 16 * tileW + d)
      (idx / 16 * tileH) (idx / 16 * tileH + tileH - 1) = true)

/-- Topmost opaque row of tile `idx` as an absolute row index: the `outerTop`
scan of `_buildVerticalMetrics` (`-1`, i.e. `none`, when the tile is empty). -/
def tileTopRow (scan : Scan) (tileW tileH idx : ℕ) : Option ℕ :=
  (firstBelow (fun d => rowHasOpaque scan (idx / 16 * tileH + d)
      (idx % 16 * tileW) (idx % 16 * tileW + tileW - 1)) tileH).map
    (fun d => idx / 16 * tileH + d)

/-- Bottommost opaque row of tile `idx` (the `outerBottom` scan). -/
def tileBottomRow (scan : Scan) (tileW tileH idx : ℕ) : Option ℕ :=
  (lastBelow (fun d => rowHasOpaque scan (idx / 16 * tileH + d)
      (idx % 16 * tileW) (idx % 16 * tileW + tileW - 1)) tileH).map
    (fun d => idx / 16 * tileH + d)

/-- The `(top + bottom) / 2 - y0` value a tile contributes to `sumCenter`
(0 for a tile with no opaque pixel, which contributes nothing). -/
def tileCenterVal (scan : Scan) (tileW tileH idx : ℕ) : ℚ :=
  match tileTopRow scan tileW tileH idx, tileBottomRow scan tileW tileH idx with
  | some top, some bottom =>
    ((top : ℚ) + (bottom : ℚ)) / 2 - ((idx / 16 * tileH : ℕ) : ℚ)
  | _, _ => 0

/-- The `sumCenter` / `count` accumulation loop of `_buildVerticalMetrics`,
run over tile indices `0 .. n - 1`. -/
def vmAccum (scan : Scan) (tileW tileH : ℕ) : ℕ → ℚ × ℕ
  | 0 => (0, 0)
  | n + 1 =>
    match tileTopRow scan tileW tileH n, tileBottomRow scan tileW tileH n with
    | some top, some bottom =>
      ((vmAccum scan tileW tileH n).1 +
          (((top : ℚ) + (bottom : ℚ)) / 2 - ((n / 16 * tileH : ℕ) : ℚ)),
        (vmAccum scan tileW tileH n).2 + 1)
    | _, _ => vmAccum scan tileW tileH n

/-- `_buildVerticalMetrics` (`centerRow` field): mean of the per-tile vertical
centers over the 256 tiles with opaque pixels, or `tileH / 2` when there is
no such tile. -/
def buildVerticalMetrics (scan : Scan) (tileW tileH : ℕ) : ℚ :=
  if (vmAccum scan tileW tileH 256).2 = 0 then (tileH : ℚ) / 2
  else (vmAccum scan tileW tileH 256).1 / ((vmAccum scan tileW tileH 256).2 : ℚ)

/-- Does tile `idx` contain any opaque pixel? -/
def tileHasOpaque (scan : Scan) (tileW tileH idx : ℕ) : Bool :=
  anyBelow (fun d => rowHasOpaque scan (idx / 16 * tileH + d)
    (idx % 16 * tileW) (idx % 16 * tileW + tileW - 1)) tileH

/-- The tiles (among the 256 of an atlas) containing at least one opaque pixel. -/
def nonEmptyTiles (scan : Scan) (tileW tileH : ℕ) : Finset ℕ :=
  (Finset.range 256).filter (fun idx => tileHasOpaque scan tileW tileH idx = true)

/-- Offsets (within the tile) of the opaque rows of tile `idx`. -/
def opaqueRows (scan : Scan) (tileW tileH idx : ℕ) : Finset ℕ :=
  (Finset.range tileH).filter
    (fun d => rowHasOpaque scan (idx / 16 * tileH + d)
      (idx % 16 * tileW) (idx % 16 * tileW + tileW - 1) = true)

/-- Specification-level local vertical center of a non-empty tile: topmost and
bottommost opaque rows (absolute), averaged, in tile-local coordinates. -/
def tileLocalCenter (scan : Scan) (tileW tileH idx : ℕ)
    (h : (opaqueRows scan tileW tileH idx).Nonempty) : ℚ :=
  (((idx / 16 * tileH + (opaqueRows scan tileW tileH idx).min' h : ℕ) : ℚ) +
      ((idx / 16 * tileH + (opaqueRows scan tileW tileH idx).max' h : ℕ) : ℚ)) / 2 -
    ((idx / 16 * tileH : ℕ) : ℚ)

/-- A tiny concrete 32×32 alpha scan (a 16×16 grid of 2×2 tiles) with a single
opaque pixel at flat index 1, i.e. at pixel `(x, y) = (1, 0)` inside tile 0;
used to evaluate the metrics theorems at a concrete input. -/
def scanW : Scan := ⟨32, 32, fun i => if i = 1 then 7 else 0⟩

/-- A fully transparent 32×32 alpha scan. -/
def scanE : Scan := ⟨32, 32, fun _ => 0⟩

/-! ### Pixel buffers and `_normalizeGlyph00LeftMargins` -/

/-- One RGBA pixel of a canvas `ImageData`. -/
structure Pix where
  r : ℕ
  g : ℕ
  b : ℕ
  a : ℕ
deriving DecidableEq

/-- A fully transparent pixel (`createImageData` zero-initializes buffers). -/
def zeroPix : Pix := ⟨0, 0, 0, 0⟩

/-- Inner loop of `leftOpaqueX`: does column `x` of a 16×16 tile contain a
pixel with alpha above 0? -/
def tileColOpaque (t : ℕ → ℕ → Pix) (x : ℕ) : Bool :=
  anyBelow (fun y => decide (0 < (t x y).a)) 16

/-- `leftOpaqueX`: the minimum opaque column of a 16×16 tile, `none` when the
tile is fully transparent (the source returns `-1`). -/
def leftOpaqueX (t : ℕ → ℕ → Pix) : Option ℕ :=
  firstBelow (tileColOpaque t) 16

/-- One tile's worth of `_normalizeGlyph00LeftMargins`: when the minimum
opaque column `left` is above 1, the tile content is shifted left by
`shift = left - 1` columns into a zero-initialized buffer (destination column
`nx` receives source column `nx + shift`; columns with no source stay
transparent); otherwise the tile is left untouched. -/
def normTile (t : ℕ → ℕ → Pix) : ℕ → ℕ → Pix :=
  match leftOpaqueX t with
  | none => t
  | some left =>
    if left ≤ 1 then t
    else fun x y => if x + (left - 1) < 16 then t (x + (left - 1)) y else zeroPix

/-- `_normalizeGlyph00LeftMargins` over a whole 256×256 `glyph_00` buffer:
the tiles of codes 32–126 (16-tiles-per-row grid, so the pixel `(x, y)`
belongs to tile `(y / 16) * 16 + x / 16`) are normalized in place, every
other pixel is untouched. -/
def normalizeGlyph00LeftMargins (img : ℕ → ℕ → Pix) : ℕ → ℕ → Pix :=
  fun x y =>
    if x < 256 ∧ y < 256 ∧ 32 ≤ y / 16 * 16 + x / 16 ∧ y / 16 * 16 + x / 16 ≤ 126 then
      normTile (fun dx dy => img (x / 16 * 16 + dx) (y / 16 * 16 + dy)) (x % 16) (y % 16)
    else img x y

/-! ### The layout engine (`MCFontRenderer.draw`) -/

/-- Rendering mode (`mode` option): `auto`, `mixed`, `default` (ASCII-only)
or `glyph` (wide-only). -/
inductive Mode
  | auto
  | mixed
  | default
  | glyph
deriving DecidableEq

/-- Baseline reference mode (`baseline` option); `glyph` is the wide baseline. -/
inductive Baseline
  | ascii
  | glyph
  | auto
deriving DecidableEq

/-- The two glyph classes tracked by `prevKind`. -/
inductive Kind
  | ascii
  | glyph
deriving DecidableEq

/-- A loaded texture pack: pixel dimensions (used for UVs), the advance table
(a `Uint16Array`, modelled as a partial map whose misses hit the `??`
defaults at the lookup sites) and the derived vertical center
(`vmet.centerRow`). -/
structure Pack where
  w : ℚ
  h : ℚ
  adv : ℕ → Option ℕ
  centerRow : ℚ

/-- Identity of the texture pack a quad samples from (JS object identity):
the ASCII atlas (`default8`), a wide page (`glyph_HH`, keyed by its numeric
high-byte value), or a quote-alternate micro-atlas (keyed by character code
34 or 39). -/
inductive PackRef
  | ascii
  | glyphPage (hi : ℕ)
  | quoteAlt (code : ℕ)
deriving DecidableEq

/-- The loaded-atlas state a draw call runs against: the eagerly loaded ASCII
pack, the wide pages present in `this.glyphs`, and the quote-alternate packs
in `this.quoteAlt`. -/
structure Env where
  ascii : Pack
  glyphs : ℕ → Option Pack
  quoteAlt : ℕ → Option Pack

/-- One emitted quad (`spans` entry): source pack, position, size and UV
rectangle.  `kind` records which emitter produced it (`pushAscii` quads,
including quote alternates, are `Kind.ascii`; `pushGlyph` quads are
`Kind.glyph`). -/
structure Span where
  pack : PackRef
  kind : Kind
  x : ℤ
  y : ℤ
  w : ℤ
  h : ℤ
  u0 : ℚ
  v0 : ℚ
  u1 : ℚ
  v1 : ℚ
deriving DecidableEq

/-- The numeric `draw` options read inside the per-character loop. -/
structure Cfg where
  scale : ℚ
  ds : ℚ
  spaceMul : ℚ
  spacingMul : ℚ
  glyphTrackPx : ℚ
  asciiAfterGlyphPadPx : ℚ
deriving DecidableEq

/-- The `draw` options the layout depends on. -/
structure DrawOpts where
  scale : ℚ
  ds : ℚ
  spaceMul : ℚ
  spacingMul : ℚ
  mode : Mode
  baseline : Baseline
  glyphTrackPx : ℚ
  asciiAfterGlyphPadPx : ℚ
deriving DecidableEq

def DrawOpts.cfg (o : DrawOpts) : Cfg :=
  ⟨o.scale, o.ds, o.spaceMul, o.spacingMul, o.glyphTrackPx, o.asciiAfterGlyphPadPx⟩

/-- `isAsciiCode`: code point in the ASCII range. -/
def isAsciiCode (cp : ℕ) : Bool := cp ≤ 0x7F

/-- `codeHi`: the high byte of a code point — its wide page id, modelled
numerically (the source formats it as two uppercase hex digits). -/
def codeHi (cp : ℕ) : ℕ := cp / 256 % 256

/-- `codeLo`: the low byte of a code point. -/
def codeLo (cp : ℕ) : ℕ := cp % 256

/-- `dp`: scale a pixel quantity and round (`Math.round(n * scale)`). -/
def dpR (scale n : ℚ) : ℤ := jround (n * scale)

/-- Mode resolution into the `defaultOnly` tristate: `some true` = ASCII
only, `some false` = wide only, `none` = mixed; mode `auto` scans the whole
text for non-ASCII code points. -/
def resolveDefaultOnly (mode : Mode) (text : List ℕ) : Option Bool :=
  match mode with
  | .default => some true
  | .glyph => some false
  | .mixed => none
  | .auto => some (text.all isAsciiCode)

/-- Page discovery: the `need` set of wide pages requested from the registry
(via `_ensureGlyphPacks`) before the span loop starts. -/
def needPages (mode : Mode) (dOnly : Option Bool) (text : List ℕ) : Finset ℕ :=
  if dOnly = some false ∨ mode = .glyph then
    insert 0 (text.map codeHi).toFinset
  else if dOnly = none then
    ((text.filter fun cp => !isAsciiCode cp).map codeHi).toFinset
  else ∅

/-- `hasGlyph`: does the mode/text combination render any wide glyph? -/
def hasGlyphB (mode : Mode) (dOnly : Option Bool) (text : List ℕ) : Bool :=
  decide (mode = .glyph) ||
    (decide (mode = .mixed) && text.any fun cp => !isAsciiCode cp) ||
    (decide (mode = .auto) && decide (dOnly = some false))

/-- The line's `refCenter` (in tile coordinates). -/
def refCenterOf (baseline : Baseline) (hasG : Bool) (asciiPack : Pack)
    (glyph00 : Option Pack) (ds : ℚ) : ℚ :=
  match baseline with
  | .ascii => asciiPack.centerRow * (if hasG then 2 else ds)
  | .glyph =>
    match glyph00 with
    | some g => g.centerRow
    | none => asciiPack.centerRow * 2
  | .auto =>
    if hasG then
      match glyph00 with
      | some g => g.centerRow
      | none => asciiPack.centerRow * 2
    else asciiPack.centerRow * ds

/-- Mutable state of the span-generation loop: the pen, the previous glyph
kind, the two quote-occurrence counters and the spans emitted so far. -/
structure LState where
  penX : ℤ
  prevKind : Option Kind
  dq : ℕ
  sq : ℕ
  spans : List Span
deriving DecidableEq

def initState : LState := ⟨0, none, 0, 0, []⟩

/-- `pushAscii`: emit one ASCII quad (8×8 tile scaled by `ds`), handling the
mixed-mode padding after a wide glyph and the opening-quote alternation. -/
def pushAscii (env : Env) (cfg : Cfg) (dOnly : Option Bool) (rc : ℚ)
    (st : LState) (code : ℕ) : LState :=
  let penX1 : ℤ :=
    if dOnly = none ∧ st.prevKind = some Kind.glyph ∧ 0 < cfg.asciiAfterGlyphPadPx
    then st.penX + jround (cfg.scale * cfg.asciiAfterGlyphPadPx)
    else st.penX
  let cx : ℕ := code % 16
  let cy : ℕ := code / 16
  let dq1 : ℕ := if dOnly ≠ some false ∧ code = 34 then st.dq + 1 else st.dq
  let sq1 : ℕ := if dOnly ≠ some false ∧ code = 39 then st.sq + 1 else st.sq
  let sel : PackRef × ℚ × ℚ × ℚ × ℚ :=
    if dOnly ≠ some false ∧ code = 34 ∧ dq1 % 2 = 1 ∧ (env.quoteAlt 34).isSome then
      (PackRef.quoteAlt 34, 0, 0, 1, 1)
    else if dOnly ≠ some false ∧ code = 39 ∧ sq1 % 2 = 1 ∧ (env.quoteAlt 39).isSome then
      (PackRef.quoteAlt 39, 0, 0, 1, 1)
    else
      (PackRef.ascii,
        ((cx * 8 : ℕ) : ℚ) / env.ascii.w, ((cy * 8 : ℕ) : ℚ) / env.ascii.h,
        (((cx + 1) * 8 : ℕ) : ℚ) / env.ascii.w, (((cy + 1) * 8 : ℕ) : ℚ) / env.ascii.h)
  let yShift : ℤ := jround ((dpR cfg.scale (rc - env.ascii.centerRow * cfg.ds) : ℤ) : ℚ)
  let delta : ℤ := jround (((dpR cfg.scale
    ((((env.ascii.adv code).getD 9 : ℕ) : ℚ) * cfg.ds) : ℤ) : ℚ) * cfg.spacingMul)
  ⟨penX1 + delta, some Kind.ascii, dq1, sq1,
    st.spans ++ [⟨sel.1, Kind.ascii, penX1, yShift,
      dpR cfg.scale (8 * cfg.ds), dpR cfg.scale (8 * cfg.ds),
      sel.2.1, sel.2.2.1, sel.2.2.2.1, sel.2.2.2.2⟩]⟩

/-- Wide-pack selection of `pushGlyph`:
`this.glyphs.get(hi) || glyph00 || asciiPack`. -/
def selGlyphPack (env : Env) (hi : ℕ) : PackRef × Pack :=
  match env.glyphs hi with
  | some p => (PackRef.glyphPage hi, p)
  | none =>
    match env.glyphs 0 with
    | some g => (PackRef.glyphPage 0, g)
    | none => (PackRef.ascii, env.ascii)

/-- `pushGlyph`: emit one wide quad (16×16 tile), with tracking between
consecutive wide glyphs and the page / page-00 / ASCII fallback chain. -/
def pushGlyph (env : Env) (cfg : Cfg) (rc : ℚ) (st : LState) (code : ℕ) : LState :=
  let penX1 : ℤ :=
    if 0 < cfg.glyphTrackPx ∧ st.prevKind = some Kind.glyph
    then st.penX + jround (cfg.scale * cfg.glyphTrackPx)
    else st.penX
  let sel := selGlyphPack env (codeHi code)
  let cx : ℕ := codeLo code % 16
  let cy : ℕ := codeLo code / 16
  let yShift : ℤ := jround ((dpR cfg.scale (rc - sel.2.centerRow * 1) : ℤ) : ℚ)
  let delta : ℤ := jround (((dpR cfg.scale
    (((sel.2.adv (codeLo code)).getD 17 : ℕ) : ℚ) : ℤ) : ℚ) * cfg.spacingMul)
  ⟨penX1 + delta, some Kind.glyph, st.dq, st.sq,
    st.spans ++ [⟨sel.1, Kind.glyph, penX1, yShift,
      dpR cfg.scale 16, dpR cfg.scale 16,
      ((cx * 16 : ℕ) : ℚ) / sel.2.w, ((cy * 16 : ℕ) : ℚ) / sel.2.h,
      (((cx + 1) * 16 : ℕ) : ℚ) / sel.2.w, (((cy + 1) * 16 : ℕ) : ℚ) / sel.2.h⟩]⟩

/-- `findPrev` of the space handler: the nearest non-space code point at an
index below `i` (a descending scan starting at `i - 1`). -/
def findPrevNS (text : List ℕ) (i : ℕ) : Option ℕ :=
  (lastBelow (fun j => decide (text.getD j 0 ≠ 32)) i).map (fun j => text.getD j 0)

/-- `findNext`: the nearest non-space code point above `i` (an ascending scan
starting at `i + 1`). -/
def findNextNS (text : List ℕ) (i : ℕ) : Option ℕ :=
  (firstBelow (fun d => decide (text.getD (i + 1 + d) 0 ≠ 32))
      (text.length - (i + 1))).map
    (fun d => text.getD (i + 1 + d) 0)

/-- Space advance along the ASCII path: the ASCII atlas's advance for code 32
(defaulting to 9), scaled by `ds` and the pixel scale, times the space-width
multiplier. -/
def asciiSpaceDelta (env : Env) (cfg : Cfg) : ℤ :=
  jround (((dpR cfg.scale
    ((((env.ascii.adv 32).getD 9 : ℕ) : ℚ) * cfg.ds) : ℤ) : ℚ) * cfg.spaceMul)

/-- Space advance along the wide path: page 00's advance for code 32 when
that atlas is loaded (defaulting to 17 = tileSize + 1, also when the page is
absent), scaled, times the space-width multiplier. -/
def wideSpaceDelta (env : Env) (cfg : Cfg) : ℤ :=
  jround (((dpR cfg.scale
    (((match env.glyphs 0 with
      | some g => (g.adv 32).getD 17
      | none => 17) : ℕ) : ℚ) : ℤ) : ℚ) * cfg.spaceMul)

/-- Pen advance of a space character (code 32) at index `i`. -/
def spaceDelta (env : Env) (cfg : Cfg) (dOnly : Option Bool)
    (text : List ℕ) (i : ℕ) : ℤ :=
  match dOnly with
  | none =>
    if (findPrevNS text i).elim false isAsciiCode &&
        (findNextNS text i).elim false isAsciiCode
    then asciiSpaceDelta env cfg else wideSpaceDelta env cfg
  | some true => asciiSpaceDelta env cfg
  | some false => wideSpaceDelta env cfg

/-- Specification-level "nearest non-space character before index `i`": some
index `j < i` holds the non-space code point `c` and everything strictly
between `j` and `i` is a space. -/
def nearestPrevNS (text : List ℕ) (i c : ℕ) : Prop :=
  ∃ j, j < i ∧ text.getD j 0 = c ∧ c ≠ 32 ∧
    ∀ k, j < k → k < i → text.getD k 0 = 32

/-- Specification-level "nearest non-space character after index `i`". -/
def nearestNextNS (text : List ℕ) (i c : ℕ) : Prop :=
  ∃ j, i < j ∧ j < text.length ∧ text.getD j 0 = c ∧ c ≠ 32 ∧
    ∀ k, i < k → k < j → text.getD k 0 = 32

/-- One iteration of the per-character loop at index `i`. -/
def stepChar (env : Env) (cfg : Cfg) (dOnly : Option Bool) (rc : ℚ)
    (text : List ℕ) (st : LState) (i : ℕ) : LState :=
  if text.getD i 0 = 32 then
    ⟨st.penX + spaceDelta env cfg dOnly text i, none, st.dq, st.sq, st.spans⟩
  else
    match dOnly with
    | some true => pushAscii env cfg dOnly rc st (text.getD i 0)
    | some false => pushGlyph env cfg rc st (text.getD i 0)
    | none =>
      if isAsciiCode (text.getD i 0)
      then pushAscii env cfg dOnly rc st (text.getD i 0)
      else pushGlyph env cfg rc st (text.getD i 0)

/-- The span loop run over the first `n` character indices. -/
def drawLoopN (env : Env) (cfg : Cfg) (dOnly : Option Bool) (rc : ℚ)
    (text : List ℕ) : ℕ → LState
  | 0 => initState
  | n + 1 => stepChar env cfg dOnly rc text (drawLoopN env cfg dOnly rc text n) n

/-- Everything the layout part of one `draw` call produces or requests. -/
structure DrawResult where
  dOnly : Option Bool
  need : Finset ℕ
  hasG : Bool
  refCenter : ℚ
  penX : ℤ
  spans : List Span
deriving DecidableEq

/-- The layout part of `MCFontRenderer.draw`: mode resolution, page
discovery, baseline resolution and the per-character span loop. -/
def draw (env : Env) (o : DrawOpts) (text : List ℕ) : DrawResult :=
  let dOnly := resolveDefaultOnly o.mode text
  let st := drawLoopN env o.cfg dOnly
    (refCenterOf o.baseline (hasGlyphB o.mode dOnly text) env.ascii (env.glyphs 0) o.ds)
    text text.length
  ⟨dOnly, needPages o.mode dOnly text, hasGlyphB o.mode dOnly text,
    refCenterOf o.baseline (hasGlyphB o.mode dOnly text) env.ascii (env.glyphs 0) o.ds,
    st.penX, st.spans⟩

/-- The `myCenter` a quad was vertically re-centered against, recoverable
from the span: ASCII-class quads use the ASCII center scaled by `ds`,
wide-class quads their own pack's center. -/
def ownCenter (env : Env) (cfg : Cfg) (s : Span) : ℚ :=
  match s.kind with
  | Kind.ascii => env.ascii.centerRow * cfg.ds
  | Kind.glyph =>
    match s.pack with
    | PackRef.glyphPage hi =>
      match env.glyphs hi with
      | some p => p.centerRow
      | none => env.ascii.centerRow
    | _ => env.ascii.centerRow

/-- Number of occurrences of code point `q` in the processed prefix. -/
def countCode (q : ℕ) (l : List ℕ) : ℕ := (l.filter fun c => decide (c = q)).length

/-- Requirements on the span emitted for the `n`-th occurrence of quote
character `q`: the quote-alternate pack with full-tile UVs exactly when `n`
is odd and the alternate exists, the normal ASCII tile otherwise. -/
def quoteSpanSpec (env : Env) (q n : ℕ) (s : Span) : Prop :=
  (s.pack = if n % 2 = 1 ∧ (env.quoteAlt q).isSome
    then PackRef.quoteAlt q else PackRef.ascii) ∧
  (n % 2 = 1 ∧ (env.quoteAlt q).isSome →
    s.u0 = 0 ∧ s.v0 = 0 ∧ s.u1 = 1 ∧ s.v1 = 1) ∧
  (n % 2 = 0 →
    s.pack = PackRef.ascii ∧
    s.u0 = ((q % 16 * 8 : ℕ) : ℚ) / env.ascii.w ∧
    s.v0 = ((q / 16 * 8 : ℕ) : ℚ) / env.ascii.h ∧
    s.u1 = (((q % 16 + 1) * 8 : ℕ) : ℚ) / env.ascii.w ∧
    s.v1 = (((q / 16 + 1) * 8 : ℕ) : ℚ) / env.ascii.h)

/-- Concrete packs and environments used to evaluate the layout theorems at
concrete inputs. -/
def packA : Pack := ⟨128, 128, fun c => if c < 256 then some 5 else none, 3⟩

def packG : Pack := ⟨256, 256, fun c => if c < 256 then some 11 else none, 7⟩

/-- A wide pack whose advance table has no entries, to exercise the `?? 17`
default-advance fallback. -/
def packN : Pack := ⟨256, 256, fun _ => none, 7⟩

def packQ : Pack := ⟨8, 8, fun c => if c < 256 then some 5 else none, 3⟩

/-- Environment with ASCII, wide pages 00 and AC (0xAC = 172) and both quote
alternates loaded. -/
def envW : Env :=
  ⟨packA, fun hi => if hi = 0 ∨ hi = 172 then some packG else none,
    fun c => if c = 34 ∨ c = 39 then some packQ else none⟩

/-- Environment where page AC is loaded but its advance table is empty, and
nothing else is loaded. -/
def envN : Env :=
  ⟨packA, fun hi => if hi = 172 then some packN else none, fun _ => none⟩

/-- The wide reference center: page 00's vertical center when that atlas is
loaded, else the ASCII center times 2.0. -/
def glyph00Center (env : Env) : ℚ :=
  match env.glyphs 0 with
  | some g => g.centerRow
  | none => env.ascii.centerRow * 2

def cfgW : Cfg := ⟨1, 1, 1, 1, 0, 0⟩

def optsBase : DrawOpts := ⟨1, 1, 1, 1, Mode.mixed, Baseline.auto, 0, 0⟩

def optsAutoW : DrawOpts := ⟨1, 1, 1, 1, Mode.auto, Baseline.ascii, 0, 0⟩

def optsMixedW : DrawOpts := ⟨1, 1, 1, 1, Mode.mixed, Baseline.ascii, 0, 0⟩

theorem anyBelow_iff {p : ℕ → Bool} {n : ℕ} :
    anyBelow p n = true ↔ ∃ b, b < n ∧ p b = true := by
  simp [anyBelow, List.any_eq_true, List.mem_range]

theorem firstBelow_bound {p : ℕ → Bool} :
    ∀ {n a : ℕ}, firstBelow p n = some a → a < n ∧ p a = true := by
  intro n
  induction n with
  | zero => intro a h; simp [firstBelow] at h
  | succ n ih =>
    intro a h
    rw [firstBelow] at h
    cases hfb : firstBelow p n with
    | some c =>
      rw [hfb] at h
      obtain ⟨hlt, hp⟩ := ih hfb
      simp only [Option.some.injEq] at h
      subst h
      exact ⟨Nat.lt_succ_of_lt hlt, hp⟩
    | none =>
      rw [hfb] at h
      by_cases hp : p n = true
      · rw [if_pos hp] at h
        simp only [Option.some.injEq] at h
        subst h
        exact ⟨Nat.lt_succ_self n, hp⟩
      · rw [if_neg hp] at h
        exact absurd h (by simp)

theorem firstBelow_eq_none {p : ℕ → Bool} :
    ∀ {n : ℕ}, firstBelow p n = none ↔ ∀ b, b < n → p b = false := by
  intro n
  induction n with
  | zero => simp [firstBelow]
  | succ n ih =>
    rw [firstBelow]
    cases hfb : firstBelow p n with
    | some c =>
      obtain ⟨hlt, hp⟩ := firstBelow_bound hfb
      simp only [reduceCtorEq, false_iff, not_forall]
      exact ⟨c, Nat.lt_succ_of_lt hlt, by simp [hp]⟩
    | none =>
      have hall : ∀ b, b < n → p b = false := ih.mp hfb
      by_cases hp : p n = true
      · rw [if_pos hp]
        simp only [reduceCtorEq, false_iff, not_forall]
        exact ⟨n, Nat.lt_succ_self n, by simp [hp]⟩
      · have hpf : p n = false := by simpa using hp
        rw [if_neg hp]
        constructor
        · intro _ b hb
          rcases Nat.lt_succ_iff_lt_or_eq.mp hb with hb' | rfl
          · exact hall b hb'
          · exact hpf
        · intro _; rfl

theorem firstBelow_eq_some {p : ℕ → Bool} :
    ∀ {n a : ℕ}, firstBelow p n = some a ↔
      a < n ∧ p a = true ∧ ∀ b, b < a → p b = false := by
  intro n
  induction n with
  | zero => intro a; simp [firstBelow]
  | succ n ih =>
    intro a
    rw [firstBelow]
    cases hfb : firstBelow p n with
    | some c =>
      obtain ⟨hclt, hcp, hcmin⟩ := ih.mp hfb
      constructor
      · intro h
        simp only [Option.some.injEq] at h
        subst h
        exact ⟨Nat.lt_succ_of_lt hclt, hcp, hcmin⟩
      · rintro ⟨halt, hap, hamin⟩
        have hac : c = a := by
          rcases Nat.lt_trichotomy a c with h | h | h
          · exact absurd hap (by simp [hcmin a h])
          · exact h.symm
          · exact absurd hcp (by simp [hamin c h])
        simp [hac]
    | none =>
      have hall : ∀ b, b < n → p b = false := firstBelow_eq_none.mp hfb
      by_cases hp : p n = true
      · rw [if_pos hp]
        simp only [Option.some.injEq]
        constructor
        · intro h
          subst h
          exact ⟨Nat.lt_succ_self n, hp, hall⟩
        · rintro ⟨halt, hap, _⟩
          rcases Nat.lt_succ_iff_lt_or_eq.mp halt with h | h
          · exact absurd hap (by simp [hall a h])
          · exact h.symm
      · have hpf : p n = false := by simpa using hp
        rw [if_neg hp]
        simp only [reduceCtorEq, false_iff, not_and]
        intro halt hap
        rcases Nat.lt_succ_iff_lt_or_eq.mp halt with h | h
        · exact absurd hap (by simp [hall a h])
        · subst h
          exact absurd hap (by simp [hpf])

theorem lastBelow_eq_none {p : ℕ → Bool} :
    ∀ {n : ℕ}, lastBelow p n = none ↔ ∀ b, b < n → p b = false := by
  intro n
  induction n with
  | zero => simp [lastBelow]
  | succ n ih =>
    rw [lastBelow]
    by_cases hp : p n = true
    · rw [if_pos hp]
      simp only [reduceCtorEq, false_iff, not_forall]
      exact ⟨n, Nat.lt_succ_self n, by simp [hp]⟩
    · have hpf : p n = false := by simpa using hp
      rw [if_neg hp, ih]
      constructor
      · intro h b hb
        rcases Nat.lt_succ_iff_lt_or_eq.mp hb with hb' | rfl
        · exact h b hb'
        · exact hpf
      · intro h b hb
        exact h b (Nat.lt_succ_of_lt hb)

theorem lastBelow_eq_some {p : ℕ → Bool} :
    ∀ {n a : ℕ}, lastBelow p n = some a ↔
      a < n ∧ p a = true ∧ ∀ b, a < b → b < n → p b = false := by
  intro n
  induction n with
  | zero => intro a; simp [lastBelow]
  | succ n ih =>
    intro a
    rw [lastBelow]
    by_cases hp : p n = true
    · rw [if_pos hp]
      simp only [Option.some.injEq]
      constructor
      · intro h
        subst h
        exact ⟨Nat.lt_succ_self n, hp, fun b hab hbn => absurd hbn (by omega)⟩
      · rintro ⟨halt, hap, hamax⟩
        rcases Nat.lt_succ_iff_lt_or_eq.mp halt with h | h
        · exact absurd hp (by simp [hamax n h (Nat.lt_succ_self n)])
        · exact h.symm
    · have hpf : p n = false := by simpa using hp
      rw [if_neg hp, ih]
      constructor
      · rintro ⟨halt, hap, hamax⟩
        refine ⟨Nat.lt_succ_of_lt halt, hap, fun b hab hbn => ?_⟩
        rcases Nat.lt_succ_iff_lt_or_eq.mp hbn with h | rfl
        · exact hamax b hab h
        · exact hpf
      · rintro ⟨halt, hap, hamax⟩
        rcases Nat.lt_succ_iff_lt_or_eq.mp halt with h | h
        · exact ⟨h, hap, fun b hab hbn => hamax b hab (Nat.lt_succ_of_lt hbn)⟩
        · subst h
          exact absurd hap (by simp [hpf])

theorem firstBelow_congr {p q : ℕ → Bool} :
    ∀ {n : ℕ}, (∀ b, b < n → p b = q b) → firstBelow p n = firstBelow q n := by
  intro n
  induction n with
  | zero => intro _; rfl
  | succ n ih =>
    intro h
    have hn := h n (Nat.lt_succ_self n)
    rw [firstBelow, firstBelow, ih (fun b hb => h b (Nat.lt_succ_of_lt hb)), hn]

theorem firstBelow_isSome_iff {p : ℕ → Bool} {n : ℕ} :
    (firstBelow p n).isSome = true ↔ ∃ b, b < n ∧ p b = true := by
  cases h : firstBelow p n with
  | some a =>
    obtain ⟨hlt, hp⟩ := firstBelow_bound h
    simp only [Option.isSome_some, true_iff]
    exact ⟨a, hlt, hp⟩
  | none =>
    have hall := firstBelow_eq_none.mp h
    simp only [Option.isSome_none, Bool.false_eq_true, false_iff, not_exists]
    intro b hb
    simp [hall b hb.1] at hb

/-- `firstBelow` finds the minimum of the set of hits. -/
theorem firstBelow_eq_min' {p : ℕ → Bool} {n a : ℕ}
    (h : firstBelow p n = some a)
    (hne : ((Finset.range n).filter (fun b => p b = true)).Nonempty) :
    ((Finset.range n).filter (fun b => p b = true)).min' hne = a := by
  obtain ⟨hlt, hp, hmin⟩ := firstBelow_eq_some.mp h
  apply le_antisymm
  · exact Finset.min'_le _ a (by simp [Finset.mem_filter, Finset.mem_range, hlt, hp])
  · have hmem := Finset.min'_mem _ hne
    simp only [Finset.mem_filter, Finset.mem_range] at hmem
    by_contra hcon
    push_neg at hcon
    exact absurd hmem.2 (by simp [hmin _ hcon])

/-- `lastBelow` finds the maximum of the set of hits. -/
theorem lastBelow_eq_max' {p : ℕ → Bool} {n a : ℕ}
    (h : lastBelow p n = some a)
    (hne : ((Finset.range n).filter (fun b => p b = true)).Nonempty) :
    ((Finset.range n).filter (fun b => p b = true)).max' hne = a := by
  obtain ⟨hlt, hp, hmax⟩ := lastBelow_eq_some.mp h
  apply le_antisymm
  · have hmem := Finset.max'_mem _ hne
    simp only [Finset.mem_filter, Finset.mem_range] at hmem
    by_contra hcon
    push_neg at hcon
    exact absurd hmem.2 (by simp [hmax _ hcon hmem.1])
  · exact Finset.le_max' _ a (by simp [Finset.mem_filter, Finset.mem_range, hlt, hp])

theorem lastBelow_isSome_iff {p : ℕ → Bool} {n : ℕ} :
    (lastBelow p n).isSome = true ↔ ∃ b, b < n ∧ p b = true := by
  cases h : lastBelow p n with
  | some a =>
    obtain ⟨hlt, hp, _⟩ := lastBelow_eq_some.mp h
    simp only [Option.isSome_some, true_iff]
    exact ⟨a, hlt, hp⟩
  | none =>
    have hall := lastBelow_eq_none.mp h
    simp only [Option.isSome_none, Bool.false_eq_true, false_iff, not_exists]
    intro b hb
    simp [hall b hb.1] at hb

theorem optionMap_isSome {α β : Type} (o : Option α) (f : α → β) :
    (o.map f).isSome = o.isSome := by
  cases o <;> rfl

/-- The `left` / `right` scans of one tile of `_buildAdvance`, related to the
minimum and maximum of the set of hit columns. -/
theorem scanRange_spec (P : ℕ → Bool) (w : ℕ) :
    ((Finset.range w).filter (fun b => P b = true) = ∅ →
      advCompute w (firstBelow P w) (lastBelow P w) = w) ∧
    ∀ h : ((Finset.range w).filter (fun b => P b = true)).Nonempty,
      advCompute w (firstBelow P w) (lastBelow P w) =
        (((Finset.range w).filter (fun b => P b = true)).max' h -
            ((Finset.range w).filter (fun b => P b = true)).min' h + 1) + 1 := by
  classical
  cases hf : firstBelow P w with
  | none =>
    have hall := firstBelow_eq_none.mp hf
    have hl : lastBelow P w = none := lastBelow_eq_none.mpr hall
    have hS : ((Finset.range w).filter (fun b => P b = true)).Nonempty → False := by
      rintro ⟨b, hb⟩
      simp only [Finset.mem_filter, Finset.mem_range] at hb
      exact absurd hb.2 (by simp [hall b hb.1])
    exact ⟨fun _ => by rw [hl]; rfl, fun h => absurd h hS⟩
  | some l =>
    obtain ⟨hlW, hlp, hlmin⟩ := firstBelow_eq_some.mp hf
    cases hg : lastBelow P w with
    | none => exact absurd hlp (by simp [lastBelow_eq_none.mp hg l hlW])
    | some r =>
      have hmem : l ∈ (Finset.range w).filter (fun b => P b = true) := by
        simp [Finset.mem_filter, Finset.mem_range, hlW, hlp]
      have hne : ((Finset.range w).filter (fun b => P b = true)).Nonempty := ⟨l, hmem⟩
      constructor
      · intro hS
        exact absurd hne (by simp [hS])
      · intro h
        rw [firstBelow_eq_min' hf h, lastBelow_eq_max' hg h]
        rfl

/-- **C3** Advance table derivation: for every opacity map and every tile
index, if the tile contains no opaque pixel (alpha above 0) the derived
advance equals the tile size; otherwise it equals
`(rightmost opaque column - leftmost opaque column + 1) + 1`, where a column
counts as opaque when any pixel in the tile's row range has alpha above 0. -/
theorem advance_table_derivation (scan : Scan) (tileW tileH idx : ℕ) :
    (opaqueCols scan tileW tileH idx = ∅ →
      buildAdvance scan tileW tileH idx = tileW) ∧
    ∀ h : (opaqueCols scan tileW tileH idx).Nonempty,
      buildAdvance scan tileW tileH idx =
        ((opaqueCols scan tileW tileH idx).max' h -
            (opaqueCols scan tileW tileH idx).min' h + 1) + 1 := by
  have hspec := scanRange_spec (fun d => colHasOpaque scan (idx % 16 * tileW + d)
    (idx / 16 * tileH) (idx / 16 * tileH + tileH - 1)) tileW
  exact hspec

theorem advance_table_derivation_witness :
    opaqueCols scanW 2 2 1 = ∅ ∧ buildAdvance scanW 2 2 1 = 2 :=
  ⟨by decide, (advance_table_derivation scanW 2 2 1).1 (by decide)⟩

theorem tileTopRow_isSome_iff (scan : Scan) (tileW tileH idx : ℕ) :
    (tileTopRow scan tileW tileH idx).isSome = true ↔
      tileHasOpaque scan tileW tileH idx = true := by
  unfold tileTopRow tileHasOpaque
  rw [optionMap_isSome, firstBelow_isSome_iff, anyBelow_iff]

theorem tileBottomRow_isSome_iff (scan : Scan) (tileW tileH idx : ℕ) :
    (tileBottomRow scan tileW tileH idx).isSome = true ↔
      tileHasOpaque scan tileW tileH idx = true := by
  unfold tileBottomRow tileHasOpaque
  rw [optionMap_isSome, lastBelow_isSome_iff, anyBelow_iff]

/-- The accumulation loop of `_buildVerticalMetrics` computes the sum of the
per-tile center values over the non-empty tiles, together with their count. -/
theorem vmAccum_eq_sum (scan : Scan) (tileW tileH : ℕ) :
    ∀ n, vmAccum scan tileW tileH n =
      (∑ idx in (Finset.range n).filter
          (fun idx => tileHasOpaque scan tileW tileH idx = true),
          tileCenterVal scan tileW tileH idx,
        ((Finset.range n).filter
          (fun idx => tileHasOpaque scan tileW tileH idx = true)).card) := by
  intro n
  induction n with
  | zero => simp [vmAccum]
  | succ n ih =>
    rw [vmAccum, Finset.range_succ, Finset.filter_insert]
    by_cases h : tileHasOpaque scan tileW tileH n = true
    · rcases Option.isSome_iff_exists.mp
        ((tileTopRow_isSome_iff scan tileW tileH n).mpr h) with ⟨top, htop⟩
      rcases Option.isSome_iff_exists.mp
        ((tileBottomRow_isSome_iff scan tileW tileH n).mpr h) with ⟨bot, hbot⟩
      have hnot : n ∉ (Finset.range n).filter
          (fun idx => tileHasOpaque scan tileW tileH idx = true) := by simp
      have hval : tileCenterVal scan tileW tileH n
          = ((top : ℚ) + (bot : ℚ)) / 2 - ((n / 16 * tileH : ℕ) : ℚ) := by
        unfold tileCenterVal
        rw [htop, hbot]
      rw [htop, hbot, if_pos h, Finset.sum_insert hnot,
        Finset.card_insert_of_not_mem hnot, ih, hval]
      exact Prod.ext (add_comm _ _) rfl
    · have htopn : tileTopRow scan tileW tileH n = none := by
        cases hcase : tileTopRow scan tileW tileH n with
        | none => rfl
        | some a =>
          exact absurd ((tileTopRow_isSome_iff scan tileW tileH n).mp
            (by rw [hcase]; rfl)) h
      have hbotn : tileBottomRow scan tileW tileH n = none := by
        cases hcase : tileBottomRow scan tileW tileH n with
        | none => rfl
        | some a =>
          exact absurd ((tileBottomRow_isSome_iff scan tileW tileH n).mp
            (by rw [hcase]; rfl)) h
      rw [htopn, hbotn, if_neg h]
      exact ih

theorem opaqueRows_nonempty_of_mem {scan : Scan} {tileW tileH idx : ℕ}
    (h : idx ∈ nonEmptyTiles scan tileW tileH) :
    (opaqueRows scan tileW tileH idx).Nonempty := by
  unfold nonEmptyTiles at h
  rcases anyBelow_iff.mp (Finset.mem_filter.mp h).2 with ⟨d, hd, hp⟩
  exact ⟨d, by
    unfold opaqueRows
    rw [Finset.mem_filter, Finset.mem_range]
    exact ⟨hd, hp⟩⟩

/-- On a non-empty tile, the loop's center value agrees with the
specification-level local center (min and max opaque rows, averaged). -/
theorem tileCenterVal_eq_local {scan : Scan} {tileW tileH idx : ℕ}
    (h : idx ∈ nonEmptyTiles scan tileW tileH) :
    tileCenterVal scan tileW tileH idx =
      tileLocalCenter scan tileW tileH idx (opaqueRows_nonempty_of_mem h) := by
  have hop : tileHasOpaque scan tileW tileH idx = true := by
    unfold nonEmptyTiles at h
    exact (Finset.mem_filter.mp h).2
  rcases Option.isSome_iff_exists.mp
    ((tileTopRow_isSome_iff scan tileW tileH idx).mpr hop) with ⟨top, htop⟩
  rcases Option.isSome_iff_exists.mp
    ((tileBottomRow_isSome_iff scan tileW tileH idx).mpr hop) with ⟨bot, hbot⟩
  rcases Option.map_eq_some'.mp htop with ⟨dtop, hdtop, hftop⟩
  rcases Option.map_eq_some'.mp hbot with ⟨dbot, hdbot, hfbot⟩
  have htop' : tileTopRow scan tileW tileH idx
      = some (idx / 16 * tileH + dtop) := by rw [htop, ← hftop]
  have hbot' : tileBottomRow scan tileW tileH idx
      = some (idx / 16 * tileH + dbot) := by rw [hbot, ← hfbot]
  have hmin : (opaqueRows scan tileW tileH idx).min' (opaqueRows_nonempty_of_mem h)
      = dtop := firstBelow_eq_min' hdtop _
  have hmax : (opaqueRows scan tileW tileH idx).max' (opaqueRows_nonempty_of_mem h)
      = dbot := lastBelow_eq_max' hdbot _
  unfold tileCenterVal tileLocalCenter
  rw [htop', hbot', hmin, hmax]

/-- **C4** Vertical-center derivation: for every opacity map, the atlas-wide
center is the arithmetic mean, over exactly the tiles (of the 256) containing
at least one opaque pixel, of `(topmost opaque row + bottommost opaque row)/2
- tileTop`; when no tile has any opaque pixel the center is `tileSize / 2`. -/
theorem vertical_center_derivation (scan : Scan) (tileW tileH : ℕ) :
    (nonEmptyTiles scan tileW tileH = ∅ →
      buildVerticalMetrics scan tileW tileH = (tileH : ℚ) / 2) ∧
    ∀ h : (nonEmptyTiles scan tileW tileH).Nonempty,
      buildVerticalMetrics scan tileW tileH =
        (∑ t in (nonEmptyTiles scan tileW tileH).attach,
            tileLocalCenter scan tileW tileH t.1 (opaqueRows_nonempty_of_mem t.2)) /
          ((nonEmptyTiles scan tileW tileH).card : ℚ) := by
  have hacc := vmAccum_eq_sum scan tileW tileH 256
  have hfst : (vmAccum scan tileW tileH 256).1
      = ∑ idx in nonEmptyTiles scan tileW tileH, tileCenterVal scan tileW tileH idx := by
    rw [hacc]; rfl
  have hsnd : (vmAccum scan tileW tileH 256).2
      = (nonEmptyTiles scan tileW tileH).card := by
    rw [hacc]; rfl
  constructor
  · intro hT
    unfold buildVerticalMetrics
    rw [hsnd, hT]
    simp
  · intro h
    have hsum : ∑ idx in nonEmptyTiles scan tileW tileH,
        tileCenterVal scan tileW tileH idx
        = ∑ t in (nonEmptyTiles scan tileW tileH).attach,
            tileLocalCenter scan tileW tileH t.1 (opaqueRows_nonempty_of_mem t.2) := by
      rw [← Finset.sum_attach (nonEmptyTiles scan tileW tileH)
        (tileCenterVal scan tileW tileH)]
      exact Finset.sum_congr rfl (fun t _ => tileCenterVal_eq_local t.2)
    unfold buildVerticalMetrics
    rw [hsnd, hfst, hsum,
      if_neg (fun hc => (Finset.nonempty_iff_ne_empty.mp h) (Finset.card_eq_zero.mp hc))]

theorem vertical_center_derivation_witness :
    nonEmptyTiles scanE 2 2 = ∅ ∧ buildVerticalMetrics scanE 2 2 = (2 : ℚ) / 2 :=
  ⟨by decide, (vertical_center_derivation scanE 2 2).1 (by decide)⟩

theorem jround_intCast (z : ℤ) : jround ((z : ℤ) : ℚ) = z := by
  unfold jround
  rw [add_comm, Int.floor_add_int]
  norm_num

theorem jround_nonneg {q : ℚ} (h : 0 ≤ q) : 0 ≤ jround q := by
  unfold jround
  have : (0 : ℤ) = ⌊(0 : ℚ)⌋ := by norm_num
  rw [this]
  exact Int.floor_le_floor (by linarith)

theorem anyBelow_congr {p q : ℕ → Bool} {n : ℕ} (h : ∀ b, b < n → p b = q b) :
    anyBelow p n = anyBelow q n := by
  cases hq : anyBelow q n
  · cases hp : anyBelow p n
    · rfl
    · rcases anyBelow_iff.mp hp with ⟨b, hb, hpb⟩
      have hqb : q b = true := by rw [← h b hb]; exact hpb
      have htrue := anyBelow_iff.mpr ⟨b, hb, hqb⟩
      rw [hq] at htrue
      exact absurd htrue (by simp)
  · rcases anyBelow_iff.mp hq with ⟨b, hb, hqb⟩
    have hpb : p b = true := by rw [h b hb]; exact hqb
    exact anyBelow_iff.mpr ⟨b, hb, hpb⟩

theorem tileColOpaque_congr {t t' : ℕ → ℕ → Pix}
    (h : ∀ a b, a < 16 → b < 16 → t a b = t' a b) :
    ∀ x, x < 16 → tileColOpaque t x = tileColOpaque t' x := by
  intro x hx
  unfold tileColOpaque
  exact anyBelow_congr (fun b hb => by rw [h x b hx hb])

theorem leftOpaqueX_congr {t t' : ℕ → ℕ → Pix}
    (h : ∀ a b, a < 16 → b < 16 → t a b = t' a b) :
    leftOpaqueX t = leftOpaqueX t' := by
  unfold leftOpaqueX
  exact firstBelow_congr (tileColOpaque_congr h)

theorem normTile_eq_of_none {t : ℕ → ℕ → Pix} (h : leftOpaqueX t = none) :
    normTile t = t := by
  unfold normTile
  rw [h]

theorem normTile_eq_of_low {t : ℕ → ℕ → Pix} {left : ℕ}
    (h : leftOpaqueX t = some left) (hle : left ≤ 1) : normTile t = t := by
  unfold normTile
  rw [h]
  show (if left ≤ 1 then t
    else fun x y => if x + (left - 1) < 16 then t (x + (left - 1)) y else zeroPix) = t
  rw [if_pos hle]

theorem normTile_eq_of_shift {t : ℕ → ℕ → Pix} {left : ℕ}
    (h : leftOpaqueX t = some left) (hgt : ¬ left ≤ 1) :
    normTile t
      = fun x y => if x + (left - 1) < 16 then t (x + (left - 1)) y else zeroPix := by
  unfold normTile
  rw [h]
  show (if left ≤ 1 then t
    else fun x y => if x + (left - 1) < 16 then t (x + (left - 1)) y else zeroPix)
    = fun x y => if x + (left - 1) < 16 then t (x + (left - 1)) y else zeroPix
  rw [if_neg hgt]

theorem normTile_congr {t t' : ℕ → ℕ → Pix}
    (h : ∀ a b, a < 16 → b < 16 → t a b = t' a b) :
    ∀ x y, x < 16 → y < 16 → normTile t x y = normTile t' x y := by
  intro x y hx hy
  cases hL : leftOpaqueX t' with
  | none =>
    have hLt : leftOpaqueX t = none := by rw [leftOpaqueX_congr h, hL]
    rw [normTile_eq_of_none hLt, normTile_eq_of_none hL]
    exact h x y hx hy
  | some left =>
    have hLt : leftOpaqueX t = some left := by rw [leftOpaqueX_congr h, hL]
    by_cases hle : left ≤ 1
    · rw [normTile_eq_of_low hLt hle, normTile_eq_of_low hL hle]
      exact h x y hx hy
    · simp only [normTile_eq_of_shift hLt hle, normTile_eq_of_shift hL hle]
      by_cases hin : x + (left - 1) < 16
      · rw [if_pos hin, if_pos hin]
        exact h _ y hin hy
      · rw [if_neg hin, if_neg hin]

/-- After one shift pass, the minimum opaque column of the tile is exactly 1. -/
theorem leftOpaqueX_normTile_shifted {t : ℕ → ℕ → Pix} {left : ℕ}
    (hL : leftOpaqueX t = some left) (hgt : ¬ left ≤ 1) :
    leftOpaqueX
      (fun x y => if x + (left - 1) < 16 then t (x + (left - 1)) y else zeroPix)
      = some 1 := by
  obtain ⟨hlt, hp, hmin⟩ := firstBelow_eq_some.mp hL
  apply firstBelow_eq_some.mpr
  refine ⟨by norm_num, ?_, ?_⟩
  · -- column 1 of the shifted tile reads column `left` of the original
    rcases anyBelow_iff.mp hp with ⟨y, hy, hop⟩
    apply anyBelow_iff.mpr
    refine ⟨y, hy, ?_⟩
    show decide (0 < (if 1 + (left - 1) < 16
      then t (1 + (left - 1)) y else zeroPix).a) = true
    have h1 : 1 + (left - 1) = left := by omega
    rw [h1, if_pos hlt]
    exact hop
  · -- column 0 reads column `left - 1`, which is below the minimum
    intro b hb
    have hb0 : b = 0 := by omega
    subst hb0
    have hcol : tileColOpaque t (left - 1) = false := hmin (left - 1) (by omega)
    by_contra hcon
    have htrue : tileColOpaque
        (fun x y => if x + (left - 1) < 16 then t (x + (left - 1)) y else zeroPix)
        0 = true := by
      cases hcase : tileColOpaque
          (fun x y => if x + (left - 1) < 16 then t (x + (left - 1)) y else zeroPix) 0
      · exact absurd hcase hcon
      · rfl
    rcases anyBelow_iff.mp htrue with ⟨y, hy, hop⟩
    have h2 : 0 + (left - 1) < 16 := by omega
    have hop' : decide (0 < (t (0 + (left - 1)) y).a) = true := by
      have hb2 : decide (0 < (if 0 + (left - 1) < 16
          then t (0 + (left - 1)) y else zeroPix).a) = true := hop
      rwa [if_pos h2] at hb2
    have hcontra : tileColOpaque t (left - 1) = true := by
      apply anyBelow_iff.mpr
      refine ⟨y, hy, ?_⟩
      simpa [Nat.zero_add] using hop'
    rw [hcol] at hcontra
    exact absurd hcontra (by simp)

/-- Normalizing a single tile twice gives the same pixel content as doing it
once. -/
theorem normTile_idem (t : ℕ → ℕ → Pix) : normTile (normTile t) = normTile t := by
  cases hL : leftOpaqueX t with
  | none =>
    have ht := normTile_eq_of_none hL
    rw [ht, ht]
  | some left =>
    by_cases hle : left ≤ 1
    · have ht := normTile_eq_of_low hL hle
      rw [ht, ht]
    · have ht := normTile_eq_of_shift hL hle
      have hL' := leftOpaqueX_normTile_shifted hL hle
      have ht' := normTile_eq_of_low hL' (le_refl 1)
      rw [ht, ht']

/-- **C5** Left-margin normalization is idempotent: applying the `glyph_00`
left-margin normalization twice to a pixel buffer yields the same pixel
content (at every coordinate) as applying it once. -/
theorem left_margin_normalization_idempotent (img : ℕ → ℕ → Pix) (x y : ℕ) :
    normalizeGlyph00LeftMargins (normalizeGlyph00LeftMargins img) x y =
      normalizeGlyph00LeftMargins img x y := by
  by_cases hc : x < 256 ∧ y < 256 ∧ 32 ≤ y / 16 * 16 + x / 16 ∧ y / 16 * 16 + x / 16 ≤ 126
  · have hmodx : x % 16 < 16 := Nat.mod_lt _ (by norm_num)
    have hmody : y % 16 < 16 := Nat.mod_lt _ (by norm_num)
    have houter : ∀ im : ℕ → ℕ → Pix,
        normalizeGlyph00LeftMargins im x y
          = normTile (fun dx dy => im (x / 16 * 16 + dx) (y / 16 * 16 + dy))
              (x % 16) (y % 16) := by
      intro im
      unfold normalizeGlyph00LeftMargins
      rw [if_pos hc]
    have htile : ∀ dx dy, dx < 16 → dy < 16 →
        normalizeGlyph00LeftMargins img (x / 16 * 16 + dx) (y / 16 * 16 + dy) =
          normTile (fun a b => img (x / 16 * 16 + a) (y / 16 * 16 + b)) dx dy := by
      intro dx dy hdx hdy
      have hdivx : (x / 16 * 16 + dx) / 16 = x / 16 := by omega
      have hdivy : (y / 16 * 16 + dy) / 16 = y / 16 := by omega
      have hmodx' : (x / 16 * 16 + dx) % 16 = dx := by omega
      have hmody' : (y / 16 * 16 + dy) % 16 = dy := by omega
      have hcond : x / 16 * 16 + dx < 256 ∧ y / 16 * 16 + dy < 256 ∧
          32 ≤ (y / 16 * 16 + dy) / 16 * 16 + (x / 16 * 16 + dx) / 16 ∧
          (y / 16 * 16 + dy) / 16 * 16 + (x / 16 * 16 + dx) / 16 ≤ 126 := by
        rw [hdivx, hdivy]
        omega
      unfold normalizeGlyph00LeftMargins
      rw [if_pos hcond, hdivx, hdivy, hmodx', hmody']
    rw [houter (normalizeGlyph00LeftMargins img), houter img,
      normTile_congr htile (x % 16) (y % 16) hmodx hmody, normTile_idem]
  · have houter : ∀ im : ℕ → ℕ → Pix,
        normalizeGlyph00LeftMargins im x y = im x y := by
      intro im
      unfold normalizeGlyph00LeftMargins
      rw [if_neg hc]
    rw [houter (normalizeGlyph00LeftMargins img), houter img]

/-- **C1 counterexample** In mode `auto`, a text with a non-ASCII code point
is not laid out as `mixed` lays it out: the very draw plan differs (under
`auto` every character, the ASCII `A` included, is routed through wide
atlases). -/
theorem mode_auto_counterexample :
    isAsciiCode 44032 = false ∧
    (draw envW optsAutoW [65, 44032]).spans ≠ (draw envW optsMixedW [65, 44032]).spans := by
  decide

/-- **C1 (amended)** Mode `auto` resolves to the ASCII-only mode (`default`)
when every character is in the ASCII range and otherwise to the wide-only
mode (`glyph`) — not to `mixed`: the entire draw result coincides with the
corresponding forced mode. -/
theorem mode_auto_resolution (env : Env) (o : DrawOpts) (text : List ℕ)
    (h : o.mode = Mode.auto) :
    draw env o text =
      draw env ⟨o.scale, o.ds, o.spaceMul, o.spacingMul,
        if text.all isAsciiCode then Mode.default else Mode.glyph,
        o.baseline, o.glyphTrackPx, o.asciiAfterGlyphPadPx⟩ text := by
  obtain ⟨sc, ds, sm, gm, mode, bl, tp, pp⟩ := o
  simp only at h
  subst h
  cases hall : text.all isAsciiCode
  · simp [draw, resolveDefaultOnly, needPages, hasGlyphB, DrawOpts.cfg, hall]
  · simp [draw, resolveDefaultOnly, needPages, hasGlyphB, DrawOpts.cfg, hall]

theorem mode_auto_resolution_witness :
    draw envW optsAutoW [65, 44032] =
      draw envW ⟨1, 1, 1, 1,
        if [65, 44032].all isAsciiCode then Mode.default else Mode.glyph,
        Baseline.ascii, 0, 0⟩ [65, 44032] :=
  mode_auto_resolution envW optsAutoW [65, 44032] rfl

/-- **C2 counterexample** In mode `mixed` with the non-ASCII text `[0xAC00]`,
wide rendering is possible (`hasGlyph` is true), yet the page set requested
before layout does not contain page `00`. -/
theorem page_discovery_counterexample :
    hasGlyphB Mode.mixed (resolveDefaultOnly Mode.mixed [44032]) [44032] = true ∧
    0 ∉ needPages Mode.mixed (resolveDefaultOnly Mode.mixed [44032]) [44032] := by
  decide

/-- **C2 (amended)** Page discovery: in the wide-only cases (mode `glyph`, or
`defaultOnly` resolved to wide) the requested set contains page `00` and the
high byte of every code point of the text; in mode `mixed` the requested set
is exactly the set of high bytes of the non-ASCII code points (so page `00`
is requested only when some code point has high byte 0). -/
theorem page_discovery (mode : Mode) (text : List ℕ) :
    (resolveDefaultOnly mode text = some false ∨ mode = Mode.glyph →
      0 ∈ needPages mode (resolveDefaultOnly mode text) text ∧
      ∀ cp ∈ text, codeHi cp ∈ needPages mode (resolveDefaultOnly mode text) text) ∧
    (mode = Mode.mixed →
      ∀ p, p ∈ needPages mode (resolveDefaultOnly mode text) text ↔
        ∃ cp ∈ text, isAsciiCode cp = false ∧ codeHi cp = p) := by
  constructor
  · intro h
    unfold needPages
    rw [if_pos h]
    refine ⟨Finset.mem_insert_self 0 _, fun cp hcp => ?_⟩
    exact Finset.mem_insert_of_mem (List.mem_toFinset.mpr (List.mem_map_of_mem _ hcp))
  · intro h p
    subst h
    unfold needPages
    rw [if_neg (by simp [resolveDefaultOnly]), if_pos (by simp [resolveDefaultOnly])]
    simp only [List.mem_toFinset, List.mem_map, List.mem_filter, Bool.not_eq_true']
    constructor
    · rintro ⟨cp, ⟨hmem, hna⟩, hhi⟩
      exact ⟨cp, hmem, hna, hhi⟩
    · rintro ⟨cp, hmem, hna, hhi⟩
      exact ⟨cp, ⟨hmem, hna⟩, hhi⟩

theorem page_discovery_witness :
    0 ∈ needPages Mode.glyph (resolveDefaultOnly Mode.glyph [44032]) [44032] :=
  ((page_discovery Mode.glyph [44032]).1 (Or.inr rfl)).1

/-- **C9** Wide-glyph soft fallback: every wide character emits exactly one
quad; its atlas is the loaded page of the character's high byte when present,
else the loaded page `00`, else the ASCII atlas; the tile is
`(lo % 16, lo / 16)` of the low byte (encoded in the 16-pixel UV rectangle);
and when the selected pack's advance entry for the low byte is missing, the
pen advances with the default constant 17 (`tileSize + 1`) instead of
failing. -/
theorem wide_glyph_fallback (env : Env) (cfg : Cfg) (rc : ℚ) (st : LState)
    (code : ℕ) :
    ∃ s : Span,
      (pushGlyph env cfg rc st code).spans = st.spans ++ [s] ∧
      s.pack = (selGlyphPack env (codeHi code)).1 ∧
      ((env.glyphs (codeHi code)).isSome = true →
        s.pack = PackRef.glyphPage (codeHi code)) ∧
      (env.glyphs (codeHi code) = none → (env.glyphs 0).isSome = true →
        s.pack = PackRef.glyphPage 0) ∧
      (env.glyphs (codeHi code) = none → env.glyphs 0 = none →
        s.pack = PackRef.ascii) ∧
      s.u0 = ((codeLo code % 16 * 16 : ℕ) : ℚ) / (selGlyphPack env (codeHi code)).2.w ∧
      s.v0 = ((codeLo code / 16 * 16 : ℕ) : ℚ) / (selGlyphPack env (codeHi code)).2.h ∧
      s.u1 = (((codeLo code % 16 + 1) * 16 : ℕ) : ℚ) / (selGlyphPack env (codeHi code)).2.w ∧
      s.v1 = (((codeLo code / 16 + 1) * 16 : ℕ) : ℚ) / (selGlyphPack env (codeHi code)).2.h ∧
      ((selGlyphPack env (codeHi code)).2.adv (codeLo code) = none →
        (pushGlyph env cfg rc st code).penX =
          s.x + jround (((dpR cfg.scale ((17 : ℕ) : ℚ) : ℤ) : ℚ) * cfg.spacingMul)) := by
  refine ⟨_, rfl, rfl, ?_, ?_, ?_, rfl, rfl, rfl, rfl, ?_⟩
  · intro h
    rcases Option.isSome_iff_exists.mp h with ⟨p, hp⟩
    show (selGlyphPack env (codeHi code)).1 = PackRef.glyphPage (codeHi code)
    unfold selGlyphPack
    rw [hp]
  · intro h1 h2
    rcases Option.isSome_iff_exists.mp h2 with ⟨g, hg⟩
    show (selGlyphPack env (codeHi code)).1 = PackRef.glyphPage 0
    unfold selGlyphPack
    rw [h1, hg]
  · intro h1 h2
    show (selGlyphPack env (codeHi code)).1 = PackRef.ascii
    unfold selGlyphPack
    rw [h1, h2]
  · intro hadv
    show (pushGlyph env cfg rc st code).penX =
      (if 0 < cfg.glyphTrackPx ∧ st.prevKind = some Kind.glyph
        then st.penX + jround (cfg.scale * cfg.glyphTrackPx) else st.penX)
        + jround (((dpR cfg.scale ((17 : ℕ) : ℚ) : ℤ) : ℚ) * cfg.spacingMul)
    have hpen : (pushGlyph env cfg rc st code).penX
        = (if 0 < cfg.glyphTrackPx ∧ st.prevKind = some Kind.glyph
            then st.penX + jround (cfg.scale * cfg.glyphTrackPx) else st.penX)
          + jround (((dpR cfg.scale
              ((((selGlyphPack env (codeHi code)).2.adv (codeLo code)).getD 17 : ℕ)
                : ℚ) : ℤ) : ℚ) * cfg.spacingMul) := rfl
    rw [hpen, hadv]
    rfl

theorem countCode_take_succ {q : ℕ} {text : List ℕ} {n : ℕ} (hn : n < text.length) :
    countCode q (text.take (n + 1))
      = countCode q (text.take n) + (if text.getD n 0 = q then 1 else 0) := by
  have hget : text[n]? = some (text.getD n 0) := by
    rw [List.getElem?_eq_getElem hn, List.getD_eq_getElem _ _ hn]
  unfold countCode
  rw [List.take_succ, hget, List.filter_append, List.length_append]
  congr 1
  by_cases h : text.getD n 0 = q
  · have hg : text[n]?.getD 0 = q := by
      rw [← List.getD_eq_getElem?_getD]; exact h
    simp [h, hg]
  · have hg : ¬(text[n]?.getD 0 = q) := by
      rw [← List.getD_eq_getElem?_getD]; exact h
    simp [h, hg]

theorem pushAscii_dq (env : Env) (cfg : Cfg) (dOnly : Option Bool) (rc : ℚ)
    (st : LState) (code : ℕ) (hd : dOnly ≠ some false) :
    (pushAscii env cfg dOnly rc st code).dq
      = st.dq + (if code = 34 then 1 else 0) := by
  by_cases h : code = 34 <;> simp [pushAscii, hd, h]

theorem pushAscii_sq (env : Env) (cfg : Cfg) (dOnly : Option Bool) (rc : ℚ)
    (st : LState) (code : ℕ) (hd : dOnly ≠ some false) :
    (pushAscii env cfg dOnly rc st code).sq
      = st.sq + (if code = 39 then 1 else 0) := by
  by_cases h : code = 39 <;> simp [pushAscii, hd, h]

theorem pushGlyph_dq (env : Env) (cfg : Cfg) (rc : ℚ) (st : LState) (code : ℕ) :
    (pushGlyph env cfg rc st code).dq = st.dq := rfl

theorem pushGlyph_sq (env : Env) (cfg : Cfg) (rc : ℚ) (st : LState) (code : ℕ) :
    (pushGlyph env cfg rc st code).sq = st.sq := rfl

/-- The two quote-occurrence counters start at zero for each draw call and
track, at each loop index, exactly the number of occurrences of `"` and of
`'` in the processed prefix (independently of each other). -/
theorem drawLoopN_counters (env : Env) (cfg : Cfg) (dOnly : Option Bool)
    (rc : ℚ) (text : List ℕ) (hd : dOnly ≠ some false) :
    ∀ n, n ≤ text.length →
      (drawLoopN env cfg dOnly rc text n).dq = countCode 34 (text.take n) ∧
      (drawLoopN env cfg dOnly rc text n).sq = countCode 39 (text.take n) := by
  intro n
  induction n with
  | zero => intro _; simp [drawLoopN, initState, countCode]
  | succ n ih =>
    intro hn1
    have hn : n < text.length := by omega
    obtain ⟨ihdq, ihsq⟩ := ih (by omega)
    rw [drawLoopN, countCode_take_succ hn, countCode_take_succ hn]
    unfold stepChar
    by_cases hsp : text.getD n 0 = 32
    · rw [if_pos hsp]
      have hsp32 : text[n]?.getD 0 = 32 := by
        rw [← List.getD_eq_getElem?_getD]; exact hsp
      refine ⟨?_, ?_⟩ <;> simp [hsp, hsp32, ihdq, ihsq]
    · rw [if_neg hsp]
      cases dOnly with
      | none =>
        cases hac : isAsciiCode (text.getD n 0)
        · have h34 : ¬(text.getD n 0 = 34) := by
            intro hcon; rw [hcon] at hac; exact absurd hac (by decide)
          have h39 : ¬(text.getD n 0 = 39) := by
            intro hcon; rw [hcon] at hac; exact absurd hac (by decide)
          have h34g : ¬(text[n]?.getD 0 = 34) := by
            rw [← List.getD_eq_getElem?_getD]; exact h34
          have h39g : ¬(text[n]?.getD 0 = 39) := by
            rw [← List.getD_eq_getElem?_getD]; exact h39
          refine ⟨?_, ?_⟩ <;>
            simp [hac, pushGlyph_dq, pushGlyph_sq, ihdq, ihsq, h34, h39, h34g, h39g]
        · refine ⟨?_, ?_⟩ <;>
            simp [hac, pushAscii_dq, pushAscii_sq, ihdq, ihsq, hd]
      | some b =>
        cases b
        · exact absurd rfl hd
        · refine ⟨?_, ?_⟩ <;>
            simp [pushAscii_dq, pushAscii_sq, ihdq, ihsq]

/-- The span `pushAscii` emits for a quote character, relative to the counter
value before the call. -/
theorem pushAscii_quote_span (env : Env) (cfg : Cfg) (dOnly : Option Bool)
    (rc : ℚ) (st : LState) (q : ℕ) (hq : q = 34 ∨ q = 39)
    (hd : dOnly ≠ some false) :
    ∃ s : Span,
      (pushAscii env cfg dOnly rc st q).spans = st.spans ++ [s] ∧
      quoteSpanSpec env q ((if q = 34 then st.dq else st.sq) + 1) s := by
  rcases hq with rfl | rfl
  · refine ⟨_, rfl, ?_⟩
    rw [if_pos rfl]
    by_cases hsome : (env.quoteAlt 34).isSome = true
    · by_cases hodd : (st.dq + 1) % 2 = 1
      · simp [pushAscii, quoteSpanSpec, hd, hodd, hsome]
      · have hev : (st.dq + 1) % 2 = 0 := by omega
        simp [pushAscii, quoteSpanSpec, hd, hodd, hsome, hev]
    · have hns : (env.quoteAlt 34).isSome = false := by
        cases hcase : (env.quoteAlt 34).isSome
        · rfl
        · exact absurd hcase hsome
      by_cases hodd : (st.dq + 1) % 2 = 1
      · simp [pushAscii, quoteSpanSpec, hd, hodd, hns]
      · have hev : (st.dq + 1) % 2 = 0 := by omega
        simp [pushAscii, quoteSpanSpec, hd, hodd, hns, hev]
  · refine ⟨_, rfl, ?_⟩
    rw [if_neg (by decide)]
    by_cases hsome : (env.quoteAlt 39).isSome = true
    · by_cases hodd : (st.sq + 1) % 2 = 1
      · simp [pushAscii, quoteSpanSpec, hd, hodd, hsome]
      · have hev : (st.sq + 1) % 2 = 0 := by omega
        simp [pushAscii, quoteSpanSpec, hd, hodd, hsome, hev]
    · have hns : (env.quoteAlt 39).isSome = false := by
        cases hcase : (env.quoteAlt 39).isSome
        · rfl
        · exact absurd hcase hsome
      by_cases hodd : (st.sq + 1) % 2 = 1
      · simp [pushAscii, quoteSpanSpec, hd, hodd, hns]
      · have hev : (st.sq + 1) % 2 = 0 := by omega
        simp [pushAscii, quoteSpanSpec, hd, hodd, hns, hev]

/-- **C6** Quote alternation: in a draw call not in forced-wide mode, the
occurrence counters start at zero and track the two quote characters
independently, and the character at index `i`, when it is `"` (34) or `'`
(39) and is the `n`-th occurrence of that character, emits exactly one span:
the QuoteAlternate micro-atlas tile with full-tile UVs 0..1 exactly when `n`
is odd and the alternate exists, and the normal ASCII atlas tile when `n` is
even. -/
theorem quote_alternation (env : Env) (cfg : Cfg) (dOnly : Option Bool)
    (rc : ℚ) (text : List ℕ) (i q : ℕ)
    (hd : dOnly ≠ some false) (hi : i < text.length)
    (hq : q = 34 ∨ q = 39) (hcq : text.getD i 0 = q) :
    (drawLoopN env cfg dOnly rc text i).dq = countCode 34 (text.take i) ∧
    (drawLoopN env cfg dOnly rc text i).sq = countCode 39 (text.take i) ∧
    ∃ s : Span,
      (drawLoopN env cfg dOnly rc text (i + 1)).spans
        = (drawLoopN env cfg dOnly rc text i).spans ++ [s] ∧
      quoteSpanSpec env q (countCode q (text.take i) + 1) s := by
  obtain ⟨hdq, hsq⟩ := drawLoopN_counters env cfg dOnly rc text hd i (le_of_lt hi)
  refine ⟨hdq, hsq, ?_⟩
  rw [drawLoopN]
  unfold stepChar
  rw [hcq]
  have hq32 : ¬(q = 32) := by rcases hq with rfl | rfl <;> decide
  rw [if_neg hq32]
  have hqa : isAsciiCode q = true := by rcases hq with rfl | rfl <;> decide
  cases dOnly with
  | none =>
    rw [if_pos hqa]
    obtain ⟨s, hsp, hspec⟩ :=
      pushAscii_quote_span env cfg none rc (drawLoopN env cfg none rc text i) q hq hd
    refine ⟨s, hsp, ?_⟩
    rcases hq with rfl | rfl
    · rw [if_pos rfl, hdq] at hspec
      exact hspec
    · rw [if_neg (by decide), hsq] at hspec
      exact hspec
  | some b =>
    cases b
    · exact absurd rfl hd
    · obtain ⟨s, hsp, hspec⟩ :=
        pushAscii_quote_span env cfg (some true) rc
          (drawLoopN env cfg (some true) rc text i) q hq hd
      refine ⟨s, hsp, ?_⟩
      rcases hq with rfl | rfl
      · rw [if_pos rfl, hdq] at hspec
        exact hspec
      · rw [if_neg (by decide), hsq] at hspec
        exact hspec

theorem quote_alternation_witness :
    (drawLoopN envW cfgW (some true) 0 [34, 34, 34] 2).dq
      = countCode 34 ([34, 34, 34].take 2) ∧
    (drawLoopN envW cfgW (some true) 0 [34, 34, 34] 2).sq
      = countCode 39 ([34, 34, 34].take 2) ∧
    ∃ s : Span,
      (drawLoopN envW cfgW (some true) 0 [34, 34, 34] (2 + 1)).spans
        = (drawLoopN envW cfgW (some true) 0 [34, 34, 34] 2).spans ++ [s] ∧
      quoteSpanSpec envW 34 (countCode 34 ([34, 34, 34].take 2) + 1) s :=
  quote_alternation envW cfgW (some true) 0 [34, 34, 34] 2 34
    (by decide) (by decide) (Or.inl rfl) rfl

theorem jround_dpR (scale q : ℚ) :
    jround ((dpR scale q : ℤ) : ℚ) = jround (scale * q) := by
  rw [jround_intCast]
  unfold dpR
  rw [mul_comm]

theorem ownCenter_glyph_sel (env : Env) (cfg : Cfg) (hi : ℕ) (s : Span)
    (hk : s.kind = Kind.glyph) (hp : s.pack = (selGlyphPack env hi).1) :
    ownCenter env cfg s = (selGlyphPack env hi).2.centerRow := by
  unfold ownCenter
  rw [hk, hp]
  unfold selGlyphPack
  cases hg : env.glyphs hi with
  | some p => simp [hg]
  | none =>
    cases hg0 : env.glyphs 0 with
    | some g => simp [hg, hg0]
    | none => simp [hg, hg0]

/-- Every span emitted by the loop has vertical offset
`round(scale * (refCenter - its own center))`. -/
theorem drawLoopN_span_y (env : Env) (cfg : Cfg) (dOnly : Option Bool)
    (rc : ℚ) (text : List ℕ) :
    ∀ n, ∀ s ∈ (drawLoopN env cfg dOnly rc text n).spans,
      s.y = jround (cfg.scale * (rc - ownCenter env cfg s)) := by
  intro n
  induction n with
  | zero => intro s hs; simp [drawLoopN, initState] at hs
  | succ n ih =>
    intro s hs
    rw [drawLoopN] at hs
    unfold stepChar at hs
    by_cases hsp : text.getD n 0 = 32
    · rw [if_pos hsp] at hs
      exact ih s hs
    · rw [if_neg hsp] at hs
      have hascii : ∀ st : LState, ∀ dO : Option Bool,
          s ∈ (pushAscii env cfg dO rc st (text.getD n 0)).spans →
          (s ∈ st.spans → s.y = jround (cfg.scale * (rc - ownCenter env cfg s))) →
          s.y = jround (cfg.scale * (rc - ownCenter env cfg s)) := by
        intro st dO hmem hold
        rcases List.mem_append.mp hmem with h | h
        · exact hold h
        · rw [List.mem_singleton] at h
          subst h
          show jround ((dpR cfg.scale (rc - env.ascii.centerRow * cfg.ds) : ℤ) : ℚ)
            = jround (cfg.scale * (rc - env.ascii.centerRow * cfg.ds))
          exact jround_dpR cfg.scale (rc - env.ascii.centerRow * cfg.ds)
      have hglyph : ∀ st : LState,
          s ∈ (pushGlyph env cfg rc st (text.getD n 0)).spans →
          (s ∈ st.spans → s.y = jround (cfg.scale * (rc - ownCenter env cfg s))) →
          s.y = jround (cfg.scale * (rc - ownCenter env cfg s)) := by
        intro st hmem hold
        rcases List.mem_append.mp hmem with h | h
        · exact hold h
        · rw [List.mem_singleton] at h
          subst h
          rw [ownCenter_glyph_sel env cfg (codeHi (text.getD n 0)) _ rfl rfl]
          show jround ((dpR cfg.scale
              (rc - (selGlyphPack env (codeHi (text.getD n 0))).2.centerRow * 1) : ℤ) : ℚ)
            = jround (cfg.scale *
              (rc - (selGlyphPack env (codeHi (text.getD n 0))).2.centerRow))
          rw [mul_one]
          exact jround_dpR cfg.scale
            (rc - (selGlyphPack env (codeHi (text.getD n 0))).2.centerRow)
      cases dOnly with
      | none =>
        by_cases hac : isAsciiCode (text.getD n 0) = true
        · rw [if_pos hac] at hs
          exact hascii _ _ hs (ih s)
        · rw [if_neg hac] at hs
          exact hglyph _ hs (ih s)
      | some b =>
        cases b
        · exact hglyph _ hs (ih s)
        · exact hascii _ _ hs (ih s)

/-- **C7** Baseline unification: for a line rendering at least one wide
glyph, baseline `auto` yields the same draw result as baseline `glyph`
(the wide baseline), the shared reference center is wide page 00's vertical
center when loaded (else the ASCII center × 2.0), and every emitted quad's
vertical offset is `round(scale × (referenceCenter − that glyph's own
center))`. -/
theorem baseline_unification (env : Env) (o : DrawOpts) (text : List ℕ)
    (hb : o.baseline = Baseline.auto)
    (hg : hasGlyphB o.mode (resolveDefaultOnly o.mode text) text = true) :
    draw env o text
      = draw env ⟨o.scale, o.ds, o.spaceMul, o.spacingMul, o.mode,
          Baseline.glyph, o.glyphTrackPx, o.asciiAfterGlyphPadPx⟩ text ∧
    (draw env o text).refCenter = glyph00Center env ∧
    ∀ s ∈ (draw env o text).spans,
      s.y = jround (o.scale * ((draw env o text).refCenter - ownCenter env o.cfg s)) := by
  obtain ⟨sc, ds, sm, gm, mode, bl, tp, pp⟩ := o
  simp only at hb hg
  subst hb
  have hrc : refCenterOf Baseline.auto
      (hasGlyphB mode (resolveDefaultOnly mode text) text) env.ascii (env.glyphs 0) ds
      = refCenterOf Baseline.glyph
        (hasGlyphB mode (resolveDefaultOnly mode text) text) env.ascii (env.glyphs 0) ds := by
    unfold refCenterOf
    rw [hg]
    simp
  refine ⟨?_, ?_, ?_⟩
  · unfold draw
    simp only [DrawOpts.cfg, hrc]
  · show refCenterOf Baseline.auto
      (hasGlyphB mode (resolveDefaultOnly mode text) text) env.ascii (env.glyphs 0) ds
      = glyph00Center env
    rw [hrc]
    unfold refCenterOf glyph00Center
    cases hg0 : env.glyphs 0 <;> simp
  · intro s hs
    exact drawLoopN_span_y env
      (DrawOpts.cfg ⟨sc, ds, sm, gm, mode, Baseline.auto, tp, pp⟩)
      (resolveDefaultOnly mode text)
      (refCenterOf Baseline.auto
        (hasGlyphB mode (resolveDefaultOnly mode text) text) env.ascii (env.glyphs 0) ds)
      text text.length s hs

theorem baseline_unification_witness :
    draw envW optsBase [65, 44032]
      = draw envW ⟨1, 1, 1, 1, Mode.mixed, Baseline.glyph, 0, 0⟩ [65, 44032] ∧
    (draw envW optsBase [65, 44032]).refCenter = glyph00Center envW ∧
    ∀ s ∈ (draw envW optsBase [65, 44032]).spans,
      s.y = jround ((1 : ℚ) *
        ((draw envW optsBase [65, 44032]).refCenter - ownCenter envW optsBase.cfg s)) :=
  baseline_unification envW optsBase [65, 44032] rfl (by decide)

/-- `findPrev` finds exactly the nearest non-space character before `i`. -/
theorem findPrevNS_iff {text : List ℕ} {i c : ℕ} :
    findPrevNS text i = some c ↔ nearestPrevNS text i c := by
  unfold findPrevNS nearestPrevNS
  constructor
  · intro h
    rcases Option.map_eq_some'.mp h with ⟨j, hj, hjc⟩
    obtain ⟨hji, hpj, hmax⟩ := lastBelow_eq_some.mp hj
    refine ⟨j, hji, hjc, ?_, ?_⟩
    · rw [← hjc]
      exact of_decide_eq_true hpj
    · intro k hjk hki
      have h2 := hmax k hjk hki
      simpa using h2
  · rintro ⟨j, hji, hjc, hc32, hbet⟩
    have hj : lastBelow (fun j => decide (text.getD j 0 ≠ 32)) i = some j := by
      apply lastBelow_eq_some.mpr
      refine ⟨hji, ?_, ?_⟩
      · simp only [decide_eq_true_eq]
        rw [hjc]
        exact hc32
      · intro b hjb hbi
        simp only [decide_eq_false_iff_not, ne_eq, not_not]
        exact hbet b hjb hbi
    rw [hj, Option.map_some', hjc]

/-- `findNext` finds exactly the nearest non-space character after `i`. -/
theorem findNextNS_iff {text : List ℕ} {i c : ℕ} :
    findNextNS text i = some c ↔ nearestNextNS text i c := by
  unfold findNextNS nearestNextNS
  constructor
  · intro h
    rcases Option.map_eq_some'.mp h with ⟨d, hd, hdc⟩
    obtain ⟨hdlt, hpd, hmin⟩ := firstBelow_eq_some.mp hd
    refine ⟨i + 1 + d, by omega, by omega, hdc, ?_, ?_⟩
    · rw [← hdc]
      exact of_decide_eq_true hpd
    · intro k hik hkj
      have hb : k - (i + 1) < d := by omega
      have h2 := hmin (k - (i + 1)) hb
      have hidx : i + 1 + (k - (i + 1)) = k := by omega
      rw [hidx] at h2
      simpa using h2
  · rintro ⟨j, hij, hjlen, hjc, hc32, hbet⟩
    have hd : firstBelow (fun d => decide (text.getD (i + 1 + d) 0 ≠ 32))
        (text.length - (i + 1)) = some (j - (i + 1)) := by
      apply firstBelow_eq_some.mpr
      refine ⟨by omega, ?_, ?_⟩
      · have hidx : i + 1 + (j - (i + 1)) = j := by omega
        rw [hidx]
        simp only [decide_eq_true_eq]
        rw [hjc]
        exact hc32
      · intro b hb
        have h32 := hbet (i + 1 + b) (by omega) (by omega)
        simp only [decide_eq_false_iff_not, ne_eq, not_not]
        exact h32
    rw [hd, Option.map_some']
    have hidx : i + 1 + (j - (i + 1)) = j := by omega
    rw [hidx, hjc]

/-- **C8** Mixed-mode space advance: a space character emits no quad, resets
the previous-glyph-kind tracker, and advances the pen by the ASCII space
advance (times `ds`, scale and the space-width multiplier) exactly when the
nearest non-space neighbors on both sides exist and are ASCII, and by the
wide page-00 space advance (or its default 17) times the multiplier in every
other case. -/
theorem mixed_space_advance (env : Env) (cfg : Cfg) (rc : ℚ)
    (text : List ℕ) (i : ℕ) (hsp : text.getD i 0 = 32) :
    (stepChar env cfg none rc text (drawLoopN env cfg none rc text i) i).spans
      = (drawLoopN env cfg none rc text i).spans ∧
    (stepChar env cfg none rc text (drawLoopN env cfg none rc text i) i).prevKind
      = none ∧
    ((∃ cL, nearestPrevNS text i cL ∧ isAsciiCode cL = true) ∧
        (∃ cR, nearestNextNS text i cR ∧ isAsciiCode cR = true) →
      (stepChar env cfg none rc text (drawLoopN env cfg none rc text i) i).penX
        = (drawLoopN env cfg none rc text i).penX + asciiSpaceDelta env cfg) ∧
    (¬ ((∃ cL, nearestPrevNS text i cL ∧ isAsciiCode cL = true) ∧
        (∃ cR, nearestNextNS text i cR ∧ isAsciiCode cR = true)) →
      (stepChar env cfg none rc text (drawLoopN env cfg none rc text i) i).penX
        = (drawLoopN env cfg none rc text i).penX + wideSpaceDelta env cfg) := by
  have hstep : stepChar env cfg none rc text (drawLoopN env cfg none rc text i) i
      = ⟨(drawLoopN env cfg none rc text i).penX + spaceDelta env cfg none text i,
          none, (drawLoopN env cfg none rc text i).dq,
          (drawLoopN env cfg none rc text i).sq,
          (drawLoopN env cfg none rc text i).spans⟩ := by
    unfold stepChar
    rw [if_pos hsp]
  rw [hstep]
  refine ⟨rfl, rfl, ?_, ?_⟩
  · rintro ⟨⟨cL, hP, hLa⟩, ⟨cR, hN, hRa⟩⟩
    show (drawLoopN env cfg none rc text i).penX + spaceDelta env cfg none text i
      = (drawLoopN env cfg none rc text i).penX + asciiSpaceDelta env cfg
    congr 1
    have hfp : findPrevNS text i = some cL := findPrevNS_iff.mpr hP
    have hfn : findNextNS text i = some cR := findNextNS_iff.mpr hN
    unfold spaceDelta
    rw [hfp, hfn]
    simp [hLa, hRa]
  · intro hneg
    show (drawLoopN env cfg none rc text i).penX + spaceDelta env cfg none text i
      = (drawLoopN env cfg none rc text i).penX + wideSpaceDelta env cfg
    congr 1
    unfold spaceDelta
    cases hfp : findPrevNS text i with
    | none => simp
    | some cL =>
      cases hfn : findNextNS text i with
      | none => simp
      | some cR =>
        by_cases hLa : isAsciiCode cL = true
        · by_cases hRa : isAsciiCode cR = true
          · exact absurd ⟨⟨cL, findPrevNS_iff.mp hfp, hLa⟩,
              ⟨cR, findNextNS_iff.mp hfn, hRa⟩⟩ hneg
          · have hRa2 : isAsciiCode cR = false := by
              cases hcase : isAsciiCode cR
              · rfl
              · exact absurd hcase hRa
            simp [hLa, hRa2]
        · have hLa2 : isAsciiCode cL = false := by
            cases hcase : isAsciiCode cL
            · rfl
            · exact absurd hcase hLa
          simp [hLa2]

theorem mixed_space_advance_witness :
    (stepChar envW cfgW none 0 [65, 32, 66]
      (drawLoopN envW cfgW none 0 [65, 32, 66] 1) 1).spans
      = (drawLoopN envW cfgW none 0 [65, 32, 66] 1).spans ∧
    (stepChar envW cfgW none 0 [65, 32, 66]
      (drawLoopN envW cfgW none 0 [65, 32, 66] 1) 1).prevKind = none ∧
    ((∃ cL, nearestPrevNS [65, 32, 66] 1 cL ∧ isAsciiCode cL = true) ∧
        (∃ cR, nearestNextNS [65, 32, 66] 1 cR ∧ isAsciiCode cR = true) →
      (stepChar envW cfgW none 0 [65, 32, 66]
        (drawLoopN envW cfgW none 0 [65, 32, 66] 1) 1).penX
        = (drawLoopN envW cfgW none 0 [65, 32, 66] 1).penX
          + asciiSpaceDelta envW cfgW) ∧
    (¬ ((∃ cL, nearestPrevNS [65, 32, 66] 1 cL ∧ isAsciiCode cL = true) ∧
        (∃ cR, nearestNextNS [65, 32, 66] 1 cR ∧ isAsciiCode cR = true)) →
      (stepChar envW cfgW none 0 [65, 32, 66]
        (drawLoopN envW cfgW none 0 [65, 32, 66] 1) 1).penX
        = (drawLoopN envW cfgW none 0 [65, 32, 66] 1).penX
          + wideSpaceDelta envW cfgW) :=
  mixed_space_advance envW cfgW 0 [65, 32, 66] 1 rfl

theorem dpR_nonneg {scale q : ℚ} (hs : 0 ≤ scale) (hq : 0 ≤ q) :
    0 ≤ dpR scale q :=
  jround_nonneg (mul_nonneg hq hs)

theorem asciiSpaceDelta_nonneg (env : Env) (cfg : Cfg)
    (hs : 0 ≤ cfg.scale) (hds : 0 ≤ cfg.ds) (hspm : 0 ≤ cfg.spaceMul) :
    0 ≤ asciiSpaceDelta env cfg := by
  unfold asciiSpaceDelta
  apply jround_nonneg
  apply mul_nonneg _ hspm
  have h1 : (0 : ℤ) ≤ dpR cfg.scale ((((env.ascii.adv 32).getD 9 : ℕ) : ℚ) * cfg.ds) :=
    dpR_nonneg hs (mul_nonneg (Nat.cast_nonneg _) hds)
  exact_mod_cast h1

theorem wideSpaceDelta_nonneg (env : Env) (cfg : Cfg)
    (hs : 0 ≤ cfg.scale) (hspm : 0 ≤ cfg.spaceMul) :
    0 ≤ wideSpaceDelta env cfg := by
  unfold wideSpaceDelta
  apply jround_nonneg
  apply mul_nonneg _ hspm
  have h1 : (0 : ℤ) ≤ dpR cfg.scale
      (((match env.glyphs 0 with
        | some g => (g.adv 32).getD 17
        | none => 17) : ℕ) : ℚ) :=
    dpR_nonneg hs (Nat.cast_nonneg _)
  exact_mod_cast h1

theorem spaceDelta_nonneg (env : Env) (cfg : Cfg) (dOnly : Option Bool)
    (text : List ℕ) (i : ℕ)
    (hs : 0 ≤ cfg.scale) (hds : 0 ≤ cfg.ds) (hspm : 0 ≤ cfg.spaceMul) :
    0 ≤ spaceDelta env cfg dOnly text i := by
  unfold spaceDelta
  cases dOnly with
  | none =>
    by_cases hc : ((findPrevNS text i).elim false isAsciiCode &&
        (findNextNS text i).elim false isAsciiCode) = true
    · rw [if_pos hc]
      exact asciiSpaceDelta_nonneg env cfg hs hds hspm
    · rw [if_neg hc]
      exact wideSpaceDelta_nonneg env cfg hs hspm
  | some b =>
    cases b
    · exact wideSpaceDelta_nonneg env cfg hs hspm
    · exact asciiSpaceDelta_nonneg env cfg hs hds hspm

theorem pushAscii_mono (env : Env) (cfg : Cfg) (dOnly : Option Bool) (rc : ℚ)
    (st : LState) (code : ℕ)
    (hs : 0 ≤ cfg.scale) (hds : 0 ≤ cfg.ds) (hsm : 0 ≤ cfg.spacingMul)
    (hpp : 0 ≤ cfg.asciiAfterGlyphPadPx) :
    ∃ s0 : Span, (pushAscii env cfg dOnly rc st code).spans = st.spans ++ [s0] ∧
      st.penX ≤ s0.x ∧ s0.x ≤ (pushAscii env cfg dOnly rc st code).penX := by
  have hdelta : (0 : ℤ) ≤ jround (((dpR cfg.scale
      ((((env.ascii.adv code).getD 9 : ℕ) : ℚ) * cfg.ds) : ℤ) : ℚ) * cfg.spacingMul) := by
    apply jround_nonneg
    apply mul_nonneg _ hsm
    have h1 : (0 : ℤ) ≤ dpR cfg.scale ((((env.ascii.adv code).getD 9 : ℕ) : ℚ) * cfg.ds) :=
      dpR_nonneg hs (mul_nonneg (Nat.cast_nonneg _) hds)
    exact_mod_cast h1
  refine ⟨_, rfl, ?_, ?_⟩
  · show st.penX ≤ (if dOnly = none ∧ st.prevKind = some Kind.glyph ∧
        0 < cfg.asciiAfterGlyphPadPx
      then st.penX + jround (cfg.scale * cfg.asciiAfterGlyphPadPx) else st.penX)
    by_cases hc : dOnly = none ∧ st.prevKind = some Kind.glyph ∧
        0 < cfg.asciiAfterGlyphPadPx
    · rw [if_pos hc]
      exact le_add_of_nonneg_right (jround_nonneg (mul_nonneg hs hpp))
    · rw [if_neg hc]
  · exact le_add_of_nonneg_right hdelta

theorem pushGlyph_mono (env : Env) (cfg : Cfg) (rc : ℚ) (st : LState) (code : ℕ)
    (hs : 0 ≤ cfg.scale) (hsm : 0 ≤ cfg.spacingMul) (htp : 0 ≤ cfg.glyphTrackPx) :
    ∃ s0 : Span, (pushGlyph env cfg rc st code).spans = st.spans ++ [s0] ∧
      st.penX ≤ s0.x ∧ s0.x ≤ (pushGlyph env cfg rc st code).penX := by
  have hdelta : (0 : ℤ) ≤ jround (((dpR cfg.scale
      ((((selGlyphPack env (codeHi code)).2.adv (codeLo code)).getD 17 : ℕ)
        : ℚ) : ℤ) : ℚ) * cfg.spacingMul) := by
    apply jround_nonneg
    apply mul_nonneg _ hsm
    have h1 : (0 : ℤ) ≤ dpR cfg.scale
        ((((selGlyphPack env (codeHi code)).2.adv (codeLo code)).getD 17 : ℕ) : ℚ) :=
      dpR_nonneg hs (Nat.cast_nonneg _)
    exact_mod_cast h1
  refine ⟨_, rfl, ?_, ?_⟩
  · show st.penX ≤ (if 0 < cfg.glyphTrackPx ∧ st.prevKind = some Kind.glyph
      then st.penX + jround (cfg.scale * cfg.glyphTrackPx) else st.penX)
    by_cases hc : 0 < cfg.glyphTrackPx ∧ st.prevKind = some Kind.glyph
    · rw [if_pos hc]
      exact le_add_of_nonneg_right (jround_nonneg (mul_nonneg hs htp))
    · rw [if_neg hc]
  · exact le_add_of_nonneg_right hdelta

theorem pen_inv_append {spans : List Span} {pen pen2 : ℤ} {s0 : Span}
    (hall : ∀ s ∈ spans, s.x ≤ pen) (hpw : spans.Pairwise (fun a b => a.x ≤ b.x))
    (h1 : pen ≤ s0.x) (h2 : s0.x ≤ pen2) :
    (∀ s ∈ spans ++ [s0], s.x ≤ pen2) ∧
      (spans ++ [s0]).Pairwise (fun a b => a.x ≤ b.x) := by
  constructor
  · intro s hs
    rcases List.mem_append.mp hs with h | h
    · exact le_trans (hall s h) (le_trans h1 h2)
    · rw [List.mem_singleton] at h
      subst h
      exact h2
  · rw [List.pairwise_append]
    refine ⟨hpw, List.pairwise_singleton _ _, ?_⟩
    intro a ha b hb
    rw [List.mem_singleton] at hb
    subst hb
    exact le_trans (hall a ha) h1

/-- One loop step never moves the pen leftward and keeps the emitted quads
ordered by pen position. -/
theorem stepChar_mono (env : Env) (cfg : Cfg) (dOnly : Option Bool) (rc : ℚ)
    (text : List ℕ) (st : LState) (i : ℕ)
    (hs : 0 ≤ cfg.scale) (hds : 0 ≤ cfg.ds) (hspm : 0 ≤ cfg.spaceMul)
    (hsm : 0 ≤ cfg.spacingMul) (htp : 0 ≤ cfg.glyphTrackPx)
    (hpp : 0 ≤ cfg.asciiAfterGlyphPadPx) :
    st.penX ≤ (stepChar env cfg dOnly rc text st i).penX ∧
    ((∀ s ∈ st.spans, s.x ≤ st.penX) →
      st.spans.Pairwise (fun a b => a.x ≤ b.x) →
      (∀ s ∈ (stepChar env cfg dOnly rc text st i).spans,
        s.x ≤ (stepChar env cfg dOnly rc text st i).penX) ∧
      (stepChar env cfg dOnly rc text st i).spans.Pairwise (fun a b => a.x ≤ b.x)) := by
  have hasciiCase : ∀ dO : Option Bool,
      st.penX ≤ (pushAscii env cfg dO rc st (text.getD i 0)).penX ∧
      ((∀ s ∈ st.spans, s.x ≤ st.penX) →
        st.spans.Pairwise (fun a b => a.x ≤ b.x) →
        (∀ s ∈ (pushAscii env cfg dO rc st (text.getD i 0)).spans,
          s.x ≤ (pushAscii env cfg dO rc st (text.getD i 0)).penX) ∧
        (pushAscii env cfg dO rc st (text.getD i 0)).spans.Pairwise
          (fun a b => a.x ≤ b.x)) := by
    intro dO
    obtain ⟨s0, hsp, h1, h2⟩ :=
      pushAscii_mono env cfg dO rc st (text.getD i 0) hs hds hsm hpp
    refine ⟨le_trans h1 h2, fun hall hpw => ?_⟩
    rw [hsp]
    exact pen_inv_append hall hpw h1 h2
  have hglyphCase :
      st.penX ≤ (pushGlyph env cfg rc st (text.getD i 0)).penX ∧
      ((∀ s ∈ st.spans, s.x ≤ st.penX) →
        st.spans.Pairwise (fun a b => a.x ≤ b.x) →
        (∀ s ∈ (pushGlyph env cfg rc st (text.getD i 0)).spans,
          s.x ≤ (pushGlyph env cfg rc st (text.getD i 0)).penX) ∧
        (pushGlyph env cfg rc st (text.getD i 0)).spans.Pairwise
          (fun a b => a.x ≤ b.x)) := by
    obtain ⟨s0, hsp, h1, h2⟩ :=
      pushGlyph_mono env cfg rc st (text.getD i 0) hs hsm htp
    refine ⟨le_trans h1 h2, fun hall hpw => ?_⟩
    rw [hsp]
    exact pen_inv_append hall hpw h1 h2
  unfold stepChar
  by_cases hsp : text.getD i 0 = 32
  · rw [if_pos hsp]
    have hd0 := spaceDelta_nonneg env cfg dOnly text i hs hds hspm
    refine ⟨le_add_of_nonneg_right hd0, fun hall hpw => ⟨?_, hpw⟩⟩
    intro s hmem
    exact le_trans (hall s hmem) (le_add_of_nonneg_right hd0)
  · rw [if_neg hsp]
    cases dOnly with
    | none =>
      by_cases hac : isAsciiCode (text.getD i 0) = true
      · rw [if_pos hac]
        exact hasciiCase none
      · rw [if_neg hac]
        exact hglyphCase
    | some b =>
      cases b
      · exact hglyphCase
      · exact hasciiCase (some true)

/-- **C10** Pen monotonicity: when `scale`, `ds`, `spaceMul`, `spacingMul`,
`glyphTrackPx` and `asciiAfterGlyphPadPx` are all non-negative, the pen never
moves leftward across the per-character loop: the pen position is
non-decreasing in the loop index, stays non-negative, and the emitted quads'
x positions are non-decreasing in emission order. -/
theorem pen_monotonicity (env : Env) (cfg : Cfg) (dOnly : Option Bool) (rc : ℚ)
    (text : List ℕ)
    (hs : 0 ≤ cfg.scale) (hds : 0 ≤ cfg.ds) (hspm : 0 ≤ cfg.spaceMul)
    (hsm : 0 ≤ cfg.spacingMul) (htp : 0 ≤ cfg.glyphTrackPx)
    (hpp : 0 ≤ cfg.asciiAfterGlyphPadPx) :
    (∀ m n, m ≤ n → (drawLoopN env cfg dOnly rc text m).penX
      ≤ (drawLoopN env cfg dOnly rc text n).penX) ∧
    (∀ n, 0 ≤ (drawLoopN env cfg dOnly rc text n).penX) ∧
    ∀ n, (drawLoopN env cfg dOnly rc text n).spans.Pairwise
      (fun a b => a.x ≤ b.x) := by
  have hstep : ∀ n, (drawLoopN env cfg dOnly rc text n).penX
      ≤ (drawLoopN env cfg dOnly rc text (n + 1)).penX := by
    intro n
    rw [drawLoopN]
    exact (stepChar_mono env cfg dOnly rc text _ n hs hds hspm hsm htp hpp).1
  have hmono : ∀ m n, m ≤ n → (drawLoopN env cfg dOnly rc text m).penX
      ≤ (drawLoopN env cfg dOnly rc text n).penX := by
    intro m n hmn
    induction n with
    | zero =>
      have hm : m = 0 := by omega
      subst hm
      exact le_refl _
    | succ n ih =>
      rcases Nat.lt_succ_iff_lt_or_eq.mp (Nat.lt_succ_of_le hmn) with h | h
      · exact le_trans (ih (by omega)) (hstep n)
      · subst h
        exact le_refl _
  have hinv : ∀ n, (∀ s ∈ (drawLoopN env cfg dOnly rc text n).spans,
      s.x ≤ (drawLoopN env cfg dOnly rc text n).penX) ∧
      (drawLoopN env cfg dOnly rc text n).spans.Pairwise (fun a b => a.x ≤ b.x) := by
    intro n
    induction n with
    | zero =>
      constructor
      · intro s hs2
        simp [drawLoopN, initState] at hs2
      · simp [drawLoopN, initState]
    | succ n ih =>
      rw [drawLoopN]
      exact (stepChar_mono env cfg dOnly rc text _ n hs hds hspm hsm htp hpp).2
        ih.1 ih.2
  refine ⟨hmono, ?_, fun n => (hinv n).2⟩
  intro n
  have h0 : (drawLoopN env cfg dOnly rc text 0).penX = 0 := rfl
  have := hmono 0 n (Nat.zero_le n)
  rw [h0] at this
  exact this

theorem pen_monotonicity_witness :
    (∀ m n, m ≤ n → (drawLoopN envW cfgW none 0 [65, 32, 44032] m).penX
      ≤ (drawLoopN envW cfgW none 0 [65, 32, 44032] n).penX) ∧
    (∀ n, 0 ≤ (drawLoopN envW cfgW none 0 [65, 32, 44032] n).penX) ∧
    ∀ n, (drawLoopN envW cfgW none 0 [65, 32, 44032] n).spans.Pairwise
      (fun a b => a.x ≤ b.x) :=
  pen_monotonicity envW cfgW none 0 [65, 32, 44032]
    (by norm_num [cfgW]) (by norm_num [cfgW]) (by norm_num [cfgW])
    (by norm_num [cfgW]) (by norm_num [cfgW]) (by norm_num [cfgW])

end MCFont
